import Mathlib

/-!
Verification development for the `LinkedDeepDict` nested-dictionary class
(`src/linkeddeepdict/linkeddeepdict.py`).

The embedding models the class as a heap of nodes (`St`): Python object
identity becomes a `Nat`, object attributes (`parent`, `_root`,
`_locked`, `_key` and the underlying flat mapping) become the fields of
`Node`, and each method becomes a fuel-indexed state-passing function.
Python exceptions are modelled by `Err`; state mutated before an
exception is raised persists, so every operation returns the final
state together with an `Except Err` result.  Fuel (`Nat`) only bounds
recursion depth: a result of `none` means the fuel was exhausted,
`some` results are the actual behaviour of the Python code.

Keys are modelled by a small universe `PyKey` of Python values that
reproduces the runtime type tests of the source: `int` and `str` are
hashable non-sequences (strings are iterable but `issequence` excludes
them), `tup` is a hashable sequence (`isinstance(t, Hashable)` is true
for every tuple), `lst` is a non-hashable sequence, and `obj` stands
for an object that is neither hashable nor iterable.
-/

/-- Universe of Python values used as keys and path segments.  Object
identities of `LinkedDeepDict` instances are plain natural numbers. -/
inductive PyKey where
  | int (n : Int)
  | str (s : String)
  | tup (l : List PyKey)
  | lst (l : List PyKey)
  | obj (n : Nat)

mutual

/-- Decidable equality for the nested key universe. -/
def pkDecEq : (a b : PyKey) → Decidable (a = b)
  | PyKey.int x, PyKey.int y =>
    match decEq x y with
    | isTrue h => isTrue (by rw [h])
    | isFalse h => isFalse (fun hh => h (by cases hh; rfl))
  | PyKey.str x, PyKey.str y =>
    match decEq x y with
    | isTrue h => isTrue (by rw [h])
    | isFalse h => isFalse (fun hh => h (by cases hh; rfl))
  | PyKey.obj x, PyKey.obj y =>
    match decEq x y with
    | isTrue h => isTrue (by rw [h])
    | isFalse h => isFalse (fun hh => h (by cases hh; rfl))
  | PyKey.tup x, PyKey.tup y =>
    match pkDecEqL x y with
    | isTrue h => isTrue (by rw [h])
    | isFalse h => isFalse (fun hh => h (by cases hh; rfl))
  | PyKey.lst x, PyKey.lst y =>
    match pkDecEqL x y with
    | isTrue h => isTrue (by rw [h])
    | isFalse h => isFalse (fun hh => h (by cases hh; rfl))
  | PyKey.int _, PyKey.str _ => isFalse (fun h => PyKey.noConfusion h)
  | PyKey.int _, PyKey.tup _ => isFalse (fun h => PyKey.noConfusion h)
  | PyKey.int _, PyKey.lst _ => isFalse (fun h => PyKey.noConfusion h)
  | PyKey.int _, PyKey.obj _ => isFalse (fun h => PyKey.noConfusion h)
  | PyKey.str _, PyKey.int _ => isFalse (fun h => PyKey.noConfusion h)
  | PyKey.str _, PyKey.tup _ => isFalse (fun h => PyKey.noConfusion h)
  | PyKey.str _, PyKey.lst _ => isFalse (fun h => PyKey.noConfusion h)
  | PyKey.str _, PyKey.obj _ => isFalse (fun h => PyKey.noConfusion h)
  | PyKey.tup _, PyKey.int _ => isFalse (fun h => PyKey.noConfusion h)
  | PyKey.tup _, PyKey.str _ => isFalse (fun h => PyKey.noConfusion h)
  | PyKey.tup _, PyKey.lst _ => isFalse (fun h => PyKey.noConfusion h)
  | PyKey.tup _, PyKey.obj _ => isFalse (fun h => PyKey.noConfusion h)
  | PyKey.lst _, PyKey.int _ => isFalse (fun h => PyKey.noConfusion h)
  | PyKey.lst _, PyKey.str _ => isFalse (fun h => PyKey.noConfusion h)
  | PyKey.lst _, PyKey.tup _ => isFalse (fun h => PyKey.noConfusion h)
  | PyKey.lst _, PyKey.obj _ => isFalse (fun h => PyKey.noConfusion h)
  | PyKey.obj _, PyKey.int _ => isFalse (fun h => PyKey.noConfusion h)
  | PyKey.obj _, PyKey.str _ => isFalse (fun h => PyKey.noConfusion h)
  | PyKey.obj _, PyKey.tup _ => isFalse (fun h => PyKey.noConfusion h)
  | PyKey.obj _, PyKey.lst _ => isFalse (fun h => PyKey.noConfusion h)

/-- Decidable equality for lists of keys. -/
def pkDecEqL : (a b : List PyKey) → Decidable (a = b)
  | [], [] => isTrue rfl
  | [], _ :: _ => isFalse (fun h => List.noConfusion h)
  | _ :: _, [] => isFalse (fun h => List.noConfusion h)
  | a :: as, b :: bs =>
    match pkDecEq a b with
    | isFalse h => isFalse (fun hh => h (by cases hh; rfl))
    | isTrue h1 =>
      match pkDecEqL as bs with
      | isTrue h2 => isTrue (by rw [h1, h2])
      | isFalse h => isFalse (fun hh => h (by cases hh; rfl))

end

instance : DecidableEq PyKey := pkDecEq

/-- Models `isinstance(x, Hashable)`: true for ints, strings and every
tuple (a tuple has a hash slot regardless of its elements), false for
lists and for the opaque unhashable object. -/
def isHashable : PyKey → Bool
  | PyKey.int _ => true
  | PyKey.str _ => true
  | PyKey.tup _ => true
  | PyKey.lst _ => false
  | PyKey.obj _ => false

/-- Models `isinstance(x, Iterable)`. -/
def isIterable : PyKey → Bool
  | PyKey.int _ => false
  | PyKey.str _ => true
  | PyKey.tup _ => true
  | PyKey.lst _ => true
  | PyKey.obj _ => false

/-- Models `isinstance(x, six.string_types)`. -/
def isString : PyKey → Bool
  | PyKey.str _ => true
  | _ => false

/-- The `issequence` helper of the source: iterable and not a string. -/
def issequence (k : PyKey) : Bool :=
  isIterable k && !(isString k)

/-- The elements obtained by iterating over a sequence key.  Only ever
consulted behind an `issequence` guard, hence only on tuples and lists
(iterating a string, the other iterable, is excluded by `issequence`). -/
def seqElems : PyKey → List PyKey
  | PyKey.tup l => l
  | PyKey.lst l => l
  | _ => []

/-- Rebuilds the Python slice `key[1:]`, preserving the concrete
sequence type of the original key. -/
def rekey (key : PyKey) (rest : List PyKey) : PyKey :=
  match key with
  | PyKey.tup _ => PyKey.tup rest
  | _ => PyKey.lst rest

/-- A stored value: either a leaf (a non-dict Python value, abstracted
to an integer payload) or a child `LinkedDeepDict` given by identity. -/
inductive Val where
  | leaf (n : Int)
  | node (i : Nat)
deriving DecidableEq

/-- Python exception classes raised by the source. `lockedErr` models
the `RuntimeError` raised on mutation of a locked object. -/
inductive Err where
  | lockedErr
  | keyErr
  | valueErr
  | typeErr
  | indexErr
  | attrErr
deriving DecidableEq

/-- Decidable equality for outcome values. -/
def exceptDecEq {e a : Type} [DecidableEq e] [DecidableEq a] :
    (x y : Except e a) → Decidable (x = y)
  | Except.ok v, Except.ok w =>
    match decEq v w with
    | isTrue h => isTrue (by rw [h])
    | isFalse h => isFalse (fun hh => h (by cases hh; rfl))
  | Except.error v, Except.error w =>
    match decEq v w with
    | isTrue h => isTrue (by rw [h])
    | isFalse h => isFalse (fun hh => h (by cases hh; rfl))
  | Except.ok _, Except.error _ => isFalse (fun h => Except.noConfusion h)
  | Except.error _, Except.ok _ => isFalse (fun h => Except.noConfusion h)

instance {e a : Type} [DecidableEq e] [DecidableEq a] : DecidableEq (Except e a) :=
  exceptDecEq

/-- One `LinkedDeepDict` object: the underlying insertion-ordered flat
mapping, plus the `parent`, `_root`, `_locked` and `_key` attributes. -/
structure Node where
  entries : List (PyKey × Val)
  parent : Option Nat
  root : Option Nat
  locked : Option Bool
  key : Option PyKey
deriving DecidableEq

/-- A freshly constructed object: `LinkedDeepDict()`. -/
def Node.empty : Node := ⟨[], none, none, none, none⟩

/-- The heap: allocated objects and the next fresh identity. -/
structure St where
  nodes : List (Nat × Node)
  next : Nat
deriving DecidableEq

/-- Lookup in the insertion-ordered flat mapping, first match. -/
def lookupE : List (PyKey × Val) → PyKey → Option Val
  | [], _ => none
  | (k', v) :: rest, k => if k' = k then some v else lookupE rest k

/-- Store into the flat mapping: overwrite in place if the key is
present (dict overwrite keeps the position), else append. -/
def insertE : List (PyKey × Val) → PyKey → Val → List (PyKey × Val)
  | [], k, v => [(k, v)]
  | (k', v') :: rest, k, v =>
      if k' = k then (k', v) :: rest else (k', v') :: insertE rest k v

/-- Remove a key from the flat mapping. -/
def eraseE : List (PyKey × Val) → PyKey → List (PyKey × Val)
  | [], _ => []
  | (k', v') :: rest, k => if k' = k then rest else (k', v') :: eraseE rest k

/-- First-match association lookup for the heap. -/
def lookupN : List (Nat × Node) → Nat → Option Node
  | [], _ => none
  | (i', nd) :: rest, i => if i' = i then some nd else lookupN rest i

/-- Heap lookup by object identity. -/
def St.find (s : St) (i : Nat) : Option Node :=
  lookupN s.nodes i

/-- Apply an attribute update to the object with identity `i`. -/
def St.upd (s : St) (i : Nat) (g : Node → Node) : St :=
  ⟨s.nodes.map (fun p => if p.1 = i then (p.1, g p.2) else p), s.next⟩

/-- Replace the flat mapping of object `i`. -/
def setEntries (s : St) (i : Nat) (es : List (PyKey × Val)) : St :=
  s.upd i (fun nd => { nd with entries := es })

/-- Set the three linkage attributes of object `i` at once. -/
def setLink (s : St) (i : Nat) (p r : Option Nat) (k : Option PyKey) : St :=
  s.upd i (fun nd => { nd with parent := p, root := r, key := k })

/-- The `__leave_parent__` method: clear parent, root cache and own key. -/
def leaveParent (s : St) (i : Nat) : St :=
  setLink s i none none none

/-- Allocate a fresh `LinkedDeepDict()` and return its identity. -/
def alloc (s : St) : Nat × St :=
  (s.next, ⟨s.nodes ++ [(s.next, Node.empty)], s.next + 1⟩)

/-- The `lock` method: set the explicit flag on this object only. -/
def lock (s : St) (i : Nat) : St :=
  s.upd i (fun nd => { nd with locked := some true })

/-- The `unlock` method: set the explicit flag to false on this object only. -/
def unlock (s : St) (i : Nat) : St :=
  s.upd i (fun nd => { nd with locked := some false })

/-- The `locked` property: the own flag if explicitly set; a root with
no explicit flag is unlocked; otherwise the parent decides.  Fuel
bounds the parent-chain walk. -/
def lockedE : Nat → St → Nat → Option Bool
  | 0, _, _ => none
  | f + 1, s, i =>
    match s.find i with
    | none => none
    | some nd =>
      match nd.parent with
      | none => some (nd.locked.getD false)
      | some p =>
        match nd.locked with
        | some b => some b
        | none => lockedE f s p

/-- The `root` method: a parentless object is its own root; otherwise
the cached `_root` if set, else the root of the parent. -/
def rootE : Nat → St → Nat → Option Nat
  | 0, _, _ => none
  | f + 1, s, i =>
    match s.find i with
    | none => none
    | some nd =>
      match nd.parent with
      | none => some i
      | some p =>
        match nd.root with
        | some r => some r
        | none => rootE f s p

/-- The `address` property: empty for a root, else the parent address
with the own `_key` appended (a `_key` may be unset, hence `Option`). -/
def addressE : Nat → St → Nat → Option (List (Option PyKey))
  | 0, _, _ => none
  | f + 1, s, i =>
    match s.find i with
    | none => none
    | some nd =>
      match nd.parent with
      | none => some []
      | some p =>
        match addressE f s p with
        | none => none
        | some r => some (r ++ [nd.key])

/-- Set only the `parent` attribute of object `i`, as the first
statement of `__join_parent__` does. -/
def setParent (s : St) (i : Nat) (pa : Option Nat) : St :=
  s.upd i (fun nd => { nd with parent := pa })

/-- The `__join_parent__` method, in source order: `self.parent =
parent` is assigned first; then `parent.root()` — a walk over the heap
that already holds the fresh link — is cached in `self._root`; finally
`self._key = key`.  Fuel bounds the root walk, so a cycle through the
fresh link never yields a result (Python's `RecursionError`), and a
stale `_root` cache sitting on the walk is returned as-is. -/
def joinParent (f : Nat) (s : St) (i pa : Nat) (k : PyKey) : Option St :=
  match rootE f (setParent s i (some pa)) pa with
  | none => none
  | some r =>
      some ((setParent s i (some pa)).upd i
        (fun nd => { nd with root := some r, key := some k }))

/-- Spec-modelled: the `parseaddress` helper of the `dtk` tools module
is not under `src/`; per the spec it resolves a path of hashable keys
by repeated lookup, raising key-not-found as soon as a segment is
absent, an invalid-path error on a zero-length path, and a type error
when asked to subscript a leaf or to hash an unhashable segment. -/
def parseaddr : St → Nat → List PyKey → Except Err Val
  | _, _, [] => Except.error Err.valueErr
  | s, i, k :: rest =>
    match s.find i with
    | none => Except.error Err.keyErr
    | some nd =>
      if isHashable k then
        match lookupE nd.entries k with
        | none => Except.error Err.keyErr
        | some v =>
          match rest with
          | [] => Except.ok v
          | _ :: _ =>
            match v with
            | Val.node j => parseaddr s j rest
            | Val.leaf _ => Except.error Err.typeErr
      else Except.error Err.typeErr

/-- State-passing results: `none` is fuel exhaustion, otherwise the
Python outcome (normal value or exception) together with the final
heap, since mutations made before an exception persist. -/
def M (α : Type) : Type := St → Option (Except Err α × St)

/-- Return a value, heap unchanged. -/
def mok {α : Type} (a : α) : M α := fun s => some (Except.ok a, s)

/-- Raise an exception, heap unchanged. -/
def throwE {α : Type} (e : Err) : M α := fun s => some (Except.error e, s)

/-- Sequencing: propagate exceptions and fuel exhaustion. -/
def mbind {α β : Type} (x : M α) (g : α → M β) : M β := fun s =>
  match x s with
  | none => none
  | some (Except.error e, s1) => some (Except.error e, s1)
  | some (Except.ok a, s1) => g a s1

/-- Models `except KeyError`. -/
def catchKey {α : Type} (x : M α) (h : M α) : M α := fun s =>
  match x s with
  | some (Except.error Err.keyErr, s1) => h s1
  | r => r

/-- Models the pair `except ValueError` / `except KeyError` of `__getitem__`. -/
def catchKV {α : Type} (x : M α) (h : M α) : M α := fun s =>
  match x s with
  | some (Except.error Err.keyErr, s1) => h s1
  | some (Except.error Err.valueErr, s1) => h s1
  | r => r

/-- Read the `locked` property inside the monad. -/
def lockedM (f : Nat) (i : Nat) : M Bool := fun s =>
  match lockedE f s i with
  | none => none
  | some b => some (Except.ok b, s)

/-- Allocate a fresh object inside the monad. -/
def allocM : M Nat := fun s =>
  let p := alloc s
  some (Except.ok p.1, p.2)

/-- `super().__getitem__(key)`: raw lookup in the flat mapping of `i`;
`KeyError` when absent, `TypeError` on an unhashable key. -/
def superGet (i : Nat) (key : PyKey) : M Val := fun s =>
  match s.find i with
  | none => none
  | some nd =>
    if isHashable key then
      match lookupE nd.entries key with
      | some v => some (Except.ok v, s)
      | none => some (Except.error Err.keyErr, s)
    else some (Except.error Err.typeErr, s)

/-- `super().__setitem__(key, value)`: raw store. -/
def storeSet (i : Nat) (key : PyKey) (v : Val) : M Unit := fun s =>
  match s.find i with
  | none => none
  | some nd => some (Except.ok (), setEntries s i (insertE nd.entries key v))

/-- `super().__delitem__(key)`: raw delete, `KeyError` when absent,
`TypeError` on an unhashable key. -/
def superDel (i : Nat) (key : PyKey) : M Unit := fun s =>
  match s.find i with
  | none => none
  | some nd =>
    if isHashable key then
      match lookupE nd.entries key with
      | some _ => some (Except.ok (), setEntries s i (eraseE nd.entries key))
      | none => some (Except.error Err.keyErr, s)
    else some (Except.error Err.typeErr, s)

/-- `d.__leave_parent__()` when the overwritten value is a dict. -/
def leaveIfNode (v : Val) : M Unit := fun s =>
  match v with
  | Val.node j => some (Except.ok (), leaveParent s j)
  | Val.leaf _ => some (Except.ok (), s)

/-- `value.__join_parent__(self, key)` when the stored value is a dict. -/
def joinIfNode (f : Nat) (v : Val) (pa : Nat) (k : PyKey) : M Unit := fun s =>
  match v with
  | Val.leaf _ => some (Except.ok (), s)
  | Val.node m =>
    match joinParent f s m pa k with
    | none => none
    | some s1 => some (Except.ok (), s1)

mutual

/-- The `__getitem__` method: sequence keys go to `parseaddress`, other
keys to the raw lookup; `ValueError` and `KeyError` are caught and
handed to `__missing__`. -/
def getitem : Nat → Nat → PyKey → M Val
  | 0, _, _ => fun _ => none
  | f + 1, i, key =>
    catchKV
      (if issequence key then (fun s => some (parseaddr s i (seqElems key), s))
       else superGet i key)
      (missing f i key)
termination_by structural f _ _ => f

/-- The `__missing__` method: `KeyError` when effectively locked; for a
sequence key, autovivify or fetch the first segment and recurse on the
rest; for a plain key, autovivify a fresh child and return it. -/
def missing : Nat → Nat → PyKey → M Val
  | 0, _, _ => fun _ => none
  | f + 1, i, key =>
    mbind (lockedM f i) (fun b =>
      if b then throwE Err.keyErr
      else
        if issequence key then
          match seqElems key with
          | [] => throwE Err.indexErr
          | k0 :: rest =>
            mbind (contains f i k0) (fun c =>
              mbind
                (if c then getitem f i k0
                 else
                   mbind allocM (fun j =>
                     mbind (setitem f i k0 (some (Val.node j))) (fun _ =>
                       mok (Val.node j))))
                (fun value =>
                  match rest with
                  | [] => mok value
                  | _ :: _ =>
                    match value with
                    | Val.node j => missing f j (rekey key rest)
                    | Val.leaf _ => throwE Err.attrErr))
        else
          mbind allocM (fun j =>
            mbind (setitem f i key (some (Val.node j))) (fun _ =>
              mok (Val.node j))))
termination_by structural f _ _ => f

/-- The `__setitem__` method.  The `value` argument is `none` for the
Python `None` sentinel (which means deletion).  A `RuntimeError` is
raised first when effectively locked; the whole body sits in a
`try/except KeyError` whose handler calls `__missing__` on the full key. -/
def setitem : Nat → Nat → PyKey → Option Val → M Unit
  | 0, _, _, _ => fun _ => none
  | f + 1, i, key, v? =>
    mbind (lockedM f i) (fun b =>
      if b then throwE Err.lockedErr
      else
        catchKey
          (if issequence key then
            match seqElems key with
            | [] => throwE Err.indexErr
            | k0 :: rest =>
              mbind (contains f i k0) (fun c =>
                mbind (if c then getitem f i k0 else missing f i k0) (fun d =>
                  match rest with
                  | _ :: _ =>
                    match d with
                    | Val.node j => setitem f j (rekey key rest) v?
                    | Val.leaf _ => throwE Err.attrErr
                  | [] =>
                    mbind (getitem f i k0) (fun d2 =>
                      mbind (leaveIfNode d2) (fun _ =>
                        match v? with
                        | none => superDel i k0
                        | some v => setitem f i k0 (some v)))))
          else
            mbind (contains f i key) (fun c =>
              mbind
                (if c then mbind (getitem f i key) leaveIfNode else mok ())
                (fun _ =>
                  match v? with
                  | none =>
                    mbind (contains f i key) (fun c2 =>
                      if c2 then delitem f i key else mok ())
                  | some v =>
                    mbind (joinIfNode f v i key) (fun _ =>
                      storeSet i key v))))
          (mbind (missing f i key) (fun _ => mok ())))
termination_by structural f _ _ _ => f

/-- The `__delitem__` method: `RuntimeError` when effectively locked,
then the raw delete (no path support). -/
def delitem : Nat → Nat → PyKey → M Unit
  | 0, _, _ => fun _ => none
  | f + 1, i, key =>
    mbind (lockedM f i) (fun b =>
      if b then throwE Err.lockedErr else superDel i key)

/-- The `__contains__` method: a non-hashable sequence is walked
element by element (empty raises `ValueError`); a hashable key is a
raw shallow membership test; anything else raises `TypeError`. -/
def contains : Nat → Nat → PyKey → M Bool
  | 0, _, _ => fun _ => none
  | f + 1, i, item =>
    if !(isHashable item) && issequence item then
      match seqElems item with
      | [] => throwE Err.valueErr
      | l => containsWalk f (Val.node i) l
    else if isHashable item then
      fun s =>
        match s.find i with
        | none => none
        | some nd => some (Except.ok (lookupE nd.entries item).isSome, s)
    else throwE Err.typeErr
termination_by structural f _ _ => f

/-- The loop body of `__contains__` on a path: check the segment is
hashable, test membership on the current object (an `AttributeError`
stands for calling a dict method on a leaf), descend via `__getitem__`
when present, short-circuit to false when absent. -/
def containsWalk : Nat → Val → List PyKey → M Bool
  | 0, _, _ => fun _ => none
  | _ + 1, _, [] => mok true
  | f + 1, cur, x :: rest =>
    if isHashable x then
      match cur with
      | Val.leaf _ => throwE Err.attrErr
      | Val.node j =>
        mbind (contains f j x) (fun b =>
          if b then mbind (getitem f j x) (fun v => containsWalk f v rest)
          else mok false)
    else throwE Err.typeErr
termination_by structural f _ _ => f

end

/-- Pure tree shape of a nested layout: the observable structure a
node serializes to — insertion-ordered entries whose values are leaf
payloads or subtrees.  Used to state the reconstruction contract. -/
inductive PTree where
  | leaf (n : Int)
  | mk (es : List (PyKey × PTree))

mutual

/-- Decidable equality for tree shapes. -/
def ptDecEq : (a b : PTree) → Decidable (a = b)
  | PTree.leaf x, PTree.leaf y =>
    match decEq x y with
    | isTrue h => isTrue (by rw [h])
    | isFalse h => isFalse (fun hh => h (by cases hh; rfl))
  | PTree.mk x, PTree.mk y =>
    match ptDecEqL x y with
    | isTrue h => isTrue (by rw [h])
    | isFalse h => isFalse (fun hh => h (by cases hh; rfl))
  | PTree.leaf _, PTree.mk _ => isFalse (fun h => PTree.noConfusion h)
  | PTree.mk _, PTree.leaf _ => isFalse (fun h => PTree.noConfusion h)

/-- Decidable equality for entry lists of tree shapes. -/
def ptDecEqL : (a b : List (PyKey × PTree)) → Decidable (a = b)
  | [], [] => isTrue rfl
  | [], _ :: _ => isFalse (fun h => List.noConfusion h)
  | _ :: _, [] => isFalse (fun h => List.noConfusion h)
  | (ka, ta) :: as, (kb, tb) :: bs =>
    match pkDecEq ka kb with
    | isFalse h => isFalse (fun hh => h (by cases hh; rfl))
    | isTrue h0 =>
      match ptDecEq ta tb with
      | isFalse h => isFalse (fun hh => h (by cases hh; rfl))
      | isTrue h1 =>
        match ptDecEqL as bs with
        | isTrue h2 => isTrue (by rw [h0, h1, h2])
        | isFalse h => isFalse (fun hh => h (by cases hh; rfl))

end

instance : DecidableEq PTree := ptDecEq

mutual

/-- Reads the observable tree shape rooted at object `i`: the shallow
`items()` of the node with child dictionaries expanded recursively.
Fuel bounds the recursion; `none` also results from a dangling child. -/
def extractN : Nat → St → Nat → Option PTree
  | 0, _, _ => none
  | f + 1, s, i =>
    match s.find i with
    | none => none
    | some nd =>
      match extractEs f s nd.entries with
      | none => none
      | some es => some (PTree.mk es)
termination_by structural f _ _ => f

/-- Entry-list companion of `extractN`. -/
def extractEs : Nat → St → List (PyKey × Val) → Option (List (PyKey × PTree))
  | 0, _, _ => none
  | _ + 1, _, [] => some []
  | f + 1, s, (k, Val.leaf n) :: rest =>
    match extractEs f s rest with
    | none => none
    | some es => some ((k, PTree.leaf n) :: es)
  | f + 1, s, (k, Val.node j) :: rest =>
    match extractN f s j with
    | none => none
    | some t =>
      match extractEs f s rest with
      | none => none
      | some es => some ((k, t) :: es)
termination_by structural f _ _ => f

end

/-- Fuel given to each replayed `__setitem__` call during
reconstruction; any value large enough for the replayed keys works. -/
def replayFuel : Nat := 20

mutual

/-- The reconstruction recipe of `__reduce__`: build a fresh object
with the default constructor, then replay the shallow `items()` pairs
through `__setitem__`, nested subtrees being rebuilt (bottom-up) the
same way first.  A replay that raises aborts the reconstruction. -/
def rebuildN : Nat → PTree → St → Option (Nat × St)
  | 0, _, _ => none
  | _ + 1, PTree.leaf _, _ => none
  | f + 1, PTree.mk es, s =>
    let p := alloc s
    match rebuildEs f es p.1 p.2 with
    | none => none
    | some s2 => some (p.1, s2)
termination_by structural f _ _ => f

/-- Entry-list companion of `rebuildN`: replay `obj[k] = v` in order. -/
def rebuildEs : Nat → List (PyKey × PTree) → Nat → St → Option St
  | 0, _, _, _ => none
  | _ + 1, [], _, s => some s
  | f + 1, (k, PTree.leaf n) :: rest, j, s =>
    match setitem replayFuel j k (some (Val.leaf n)) s with
    | some (Except.ok _, s1) => rebuildEs f rest j s1
    | _ => none
  | f + 1, (k, PTree.mk es) :: rest, j, s =>
    match rebuildN f (PTree.mk es) s with
    | none => none
    | some (c, s1) =>
      match setitem replayFuel j k (some (Val.node c)) s1 with
      | some (Except.ok _, s2) => rebuildEs f rest j s2
      | _ => none
termination_by structural f _ _ _ => f

end

/-- Membership of a key among the keys of a serialized entry list. -/
def keyInB : List (PyKey × PTree) → PyKey → Bool
  | [], _ => false
  | (k2, _) :: rest, k => if k2 = k then true else keyInB rest k

mutual

/-- Side condition of the reconstruction contract: every key in the
tree is a scalar (non-sequence) hashable key and sibling keys are
distinct, as they are in any tree actually produced by the class. -/
def treeOkB : PTree → Bool
  | PTree.leaf _ => true
  | PTree.mk es => treeOkEsB es

/-- Entry-list companion of `treeOkB`. -/
def treeOkEsB : List (PyKey × PTree) → Bool
  | [] => true
  | (k, t) :: rest =>
    !(issequence k) && isHashable k && !(keyInB rest k) && treeOkB t && treeOkEsB rest

end

/-- The back-linkage invariant of the spec: every child dictionary
stored under a key points back to the node holding it, under that key. -/
def BackLink (s : St) : Prop :=
  ∀ i nd k j, s.find i = some nd → lookupE nd.entries k = some (Val.node j) →
    ∃ ndj, s.find j = some ndj ∧ ndj.parent = some i ∧ ndj.key = some k

/-- No aliasing of stored children: a child dictionary is stored under
at most one (node, key) slot of the whole heap. -/
def UniqueStore (s : St) : Prop :=
  ∀ i1 nd1 k1 i2 nd2 k2 m, s.find i1 = some nd1 → s.find i2 = some nd2 →
    lookupE nd1.entries k1 = some (Val.node m) →
    lookupE nd2.entries k2 = some (Val.node m) →
    i1 = i2 ∧ k1 = k2

/-- Every flat mapping carries pairwise distinct keys, as a Python
`dict` always does. -/
def NodupKeys (s : St) : Prop :=
  ∀ i nd, s.find i = some nd → nd.entries.Pairwise (fun a b => a.1 ≠ b.1)

/-- The linkage invariant bundle of the amended C5: back-linkage plus
no stored aliasing plus distinct keys per mapping. -/
def LinkOk (s : St) : Prop := BackLink s ∧ UniqueStore s ∧ NodupKeys s

/-- Heap sanity: every allocated identity is below the allocation bound. -/
def IdsOk (s : St) : Prop :=
  ∀ p, p ∈ s.nodes → p.1 < s.next

/-- The object exists and its `parent` attribute is cleared. -/
def Detached (s : St) (m : Nat) : Prop :=
  ∃ nd, s.find m = some nd ∧ nd.parent = none

/-- Reachability through stored entries, starting from object `i`. -/
inductive Reach (s : St) (i : Nat) : Nat → Prop where
  | refl : Reach s i i
  | step {j m : Nat} {nd : Node} {k : PyKey} : Reach s i j →
      s.find j = some nd → lookupE nd.entries k = some (Val.node m) →
      Reach s i m

/-- Object `d` inherits its effective lock state from object `i`: the
parent chain of `d` reaches `i` and every object on the way below `i`
has an unset lock flag. -/
inductive InheritsFrom (s : St) (i : Nat) : Nat → Prop where
  | refl : InheritsFrom s i i
  | step {d p : Nat} {nd : Node} : s.find d = some nd →
      nd.locked = none → nd.parent = some p → InheritsFrom s i p →
      InheritsFrom s i d

/-- Pure resolution of a path from a current value, descending only
through child dictionaries; used to state the `contains` walk. -/
def resolveW : St → Val → List PyKey → Option Val
  | _, cur, [] => some cur
  | _, Val.leaf _, _ :: _ => none
  | s, Val.node j, k :: rest =>
    match s.find j with
    | none => none
    | some nd =>
      match lookupE nd.entries k with
      | none => none
      | some v => resolveW s v rest

/-- The key "a" of the worked examples. -/
def keyA : PyKey := PyKey.str ("a")

/-- The key "b" of the worked examples. -/
def keyB : PyKey := PyKey.str ("b")

/-- The key "c" of the worked examples. -/
def keyC : PyKey := PyKey.str ("c")

/-- The key "x" of the worked examples. -/
def keyX : PyKey := PyKey.str ("x")

/-- A heap holding one freshly created root object. -/
def rootSt : St := ⟨[(0, Node.empty)], 1⟩


/-- The heap after `set(["a","b","c"], 1)` on a fresh root: the root 0,
the two autovivified intermediate containers 1 and 2, and the detached
empty object 3 that `__setitem__` autovivified for the last segment and
then immediately overwrote with the leaf. -/
def c1Result : St :=
  ⟨[(0, ⟨[(keyA, Val.node 1)], none, none, none, none⟩),
    (1, ⟨[(keyB, Val.node 2)], some 0, some 0, none, some keyA⟩),
    (2, ⟨[(keyC, Val.leaf 1)], some 1, some 0, none, some keyB⟩),
    (3, ⟨[], none, none, none, none⟩)], 4⟩

/-- A root whose only entry stores a leaf under the tuple key ("a",). -/
def c7St : St := ⟨[(0, ⟨[(PyKey.tup [keyA], Val.leaf 7)], none, none, none, none⟩)], 1⟩

/-- The heap `c7St` after `get(("a",))`: the tuple was resolved as a
path, so a child was autovivified under the plain key "a". -/
def c7Mut : St :=
  ⟨[(0, ⟨[(PyKey.tup [keyA], Val.leaf 7), (keyA, Val.node 1)], none, none, none, none⟩),
    (1, ⟨[], some 0, some 0, none, some keyA⟩)], 2⟩

/-- A root whose only entry stores a leaf under the tuple key ("a",). -/
def c6St : St := ⟨[(0, ⟨[(PyKey.tup [keyA], Val.leaf 1)], none, none, none, none⟩)], 1⟩

/-- The heap `c6St` after `contains([("a",)])`: the membership walk
descended through `__getitem__`, which autovivified a child at "a". -/
def c6Mut : St :=
  ⟨[(0, ⟨[(PyKey.tup [keyA], Val.leaf 1), (keyA, Val.node 1)], none, none, none, none⟩),
    (1, ⟨[], some 0, some 0, none, some keyA⟩)], 2⟩

/-- A heap with a fresh root 0 and a second detached object 1. -/
def c4St : St := ⟨[(0, Node.empty), (1, Node.empty)], 2⟩

/-- The heap `c4St` after `set("a", X)` with `X` the object 1. -/
def c4Mid : St :=
  ⟨[(0, ⟨[(keyA, Val.node 1)], none, none, none, none⟩),
    (1, ⟨[], some 0, some 0, none, some keyA⟩)], 2⟩

/-- A heap holding one explicitly locked root object. -/
def c2St : St := ⟨[(0, ⟨[], none, none, some true, none⟩)], 1⟩

/-- A three-level chain for the lock-inheritance counterexample: root 0
with an unset flag, child 1 explicitly unlocked, grandchild 2 unset. -/
def c3St : St :=
  ⟨[(0, ⟨[(keyA, Val.node 1)], none, none, none, none⟩),
    (1, ⟨[(keyB, Val.node 2)], some 0, some 0, some false, some keyA⟩),
    (2, ⟨[], some 1, some 0, none, some keyB⟩)], 3⟩

/-- A heap with a fresh root 0 and two detached objects 1 and 2. -/
def c4WSt : St := ⟨[(0, Node.empty), (1, Node.empty), (2, Node.empty)], 3⟩

/-- The heap `c4WSt` after `set("a", X)` with X the object 1. -/
def c4WMid : St :=
  ⟨[(0, ⟨[(keyA, Val.node 1)], none, none, none, none⟩),
    (1, ⟨[], some 0, some 0, none, some keyA⟩),
    (2, Node.empty)], 3⟩

/-- The heap `c4WMid` after `set("a", Y)` with Y the object 2: X is
detached and Y attached in its place. -/
def c4WFin : St :=
  ⟨[(0, ⟨[(keyA, Val.node 2)], none, none, none, none⟩),
    (1, ⟨[], none, none, none, none⟩),
    (2, ⟨[], some 0, some 0, none, some keyA⟩)], 3⟩

/-- The heap `c4Mid` after the aliasing second store `set("b", X)` with
X still the object 1: X is re-attached under "b", while the stale entry
for "a" keeps pointing at it. -/
def c5Fin : St :=
  ⟨[(0, ⟨[(keyA, Val.node 1), (keyB, Val.node 1)], none, none, none, none⟩),
    (1, ⟨[], some 0, some 0, none, some keyB⟩)], 2⟩

/-- The heap `rootSt` after `set("a", 5)`: the root holds one leaf. -/
def c5WFin : St := ⟨[(0, ⟨[(keyA, Val.leaf 5)], none, none, none, none⟩)], 1⟩

/-- The empty heap the reconstruction examples replay into. -/
def stEmpty : St := ⟨[], 0⟩

/-- A serialized tree whose only key is the hashable tuple ("a",). -/
def c9BadTree : PTree := PTree.mk [(PyKey.tup [keyA], PTree.leaf 5)]

/-- The serialized entry list of the round-trip witness: a nested
container under "a" holding a leaf at "b", and a sibling leaf at "c". -/
def c9Es : List (PyKey × PTree) :=
  [(keyA, PTree.mk [(keyB, PTree.leaf 7)]), (keyC, PTree.leaf 1)]

/-- The heap obtained by replaying `c9Es` into the empty heap: root 0
carrying the two pairs, child 1 linked back to it under "a". -/
def c9WRe : St :=
  ⟨[(0, ⟨[(keyA, Val.node 1), (keyC, Val.leaf 1)], none, none, none, none⟩),
    (1, ⟨[(keyB, Val.leaf 7)], some 0, some 0, none, some keyA⟩)], 2⟩

/-- A heap whose root stores the leaf 5 under the tuple key ("a",);
its serialization is `c9BadTree`. -/
def c9BadSt : St :=
  ⟨[(0, ⟨[(PyKey.tup [keyA], Val.leaf 5)], none, none, none, none⟩)], 1⟩

/-- The heap obtained by replaying `c9BadTree` into the empty heap: the
tuple key was path-resolved by the replayed `__setitem__`, so the leaf
landed under the plain key "a" instead (object 1 is the orphan that
autovivification created and immediately overwrote). -/
def c9BadRe : St :=
  ⟨[(0, ⟨[(keyA, Val.leaf 5)], none, none, none, none⟩), (1, Node.empty)], 2⟩

theorem getitem_succ (f : Nat) (i : Nat) (key : PyKey) :
    getitem (f + 1) i key =
      catchKV
        (if issequence key then (fun s => some (parseaddr s i (seqElems key), s))
         else superGet i key)
        (missing f i key) := rfl

theorem missing_succ (f : Nat) (i : Nat) (key : PyKey) :
    missing (f + 1) i key =
      mbind (lockedM f i) (fun b =>
        if b then throwE Err.keyErr
        else
          if issequence key then
            match seqElems key with
            | [] => throwE Err.indexErr
            | k0 :: rest =>
              mbind (contains f i k0) (fun c =>
                mbind
                  (if c then getitem f i k0
                   else
                     mbind allocM (fun j =>
                       mbind (setitem f i k0 (some (Val.node j))) (fun _ =>
                         mok (Val.node j))))
                  (fun value =>
                    match rest with
                    | [] => mok value
                    | _ :: _ =>
                      match value with
                      | Val.node j => missing f j (rekey key rest)
                      | Val.leaf _ => throwE Err.attrErr))
          else
            mbind allocM (fun j =>
              mbind (setitem f i key (some (Val.node j))) (fun _ =>
                mok (Val.node j)))) := rfl

theorem setitem_succ (f : Nat) (i : Nat) (key : PyKey) (v? : Option Val) :
    setitem (f + 1) i key v? =
      mbind (lockedM f i) (fun b =>
        if b then throwE Err.lockedErr
        else
          catchKey
            (if issequence key then
              match seqElems key with
              | [] => throwE Err.indexErr
              | k0 :: rest =>
                mbind (contains f i k0) (fun c =>
                  mbind (if c then getitem f i k0 else missing f i k0) (fun d =>
                    match rest with
                    | _ :: _ =>
                      match d with
                      | Val.node j => setitem f j (rekey key rest) v?
                      | Val.leaf _ => throwE Err.attrErr
                    | [] =>
                      mbind (getitem f i k0) (fun d2 =>
                        mbind (leaveIfNode d2) (fun _ =>
                          match v? with
                          | none => superDel i k0
                          | some v => setitem f i k0 (some v)))))
            else
              mbind (contains f i key) (fun c =>
                mbind
                  (if c then mbind (getitem f i key) leaveIfNode else mok ())
                  (fun _ =>
                    match v? with
                    | none =>
                      mbind (contains f i key) (fun c2 =>
                        if c2 then delitem f i key else mok ())
                    | some v =>
                      mbind (joinIfNode f v i key) (fun _ =>
                        storeSet i key v))))
            (mbind (missing f i key) (fun _ => mok ()))) := rfl

theorem delitem_succ (f : Nat) (i : Nat) (key : PyKey) :
    delitem (f + 1) i key =
      mbind (lockedM f i) (fun b =>
        if b then throwE Err.lockedErr else superDel i key) := rfl

theorem contains_succ (f : Nat) (i : Nat) (item : PyKey) :
    contains (f + 1) i item =
      (if !(isHashable item) && issequence item then
        match seqElems item with
        | [] => throwE Err.valueErr
        | l => containsWalk f (Val.node i) l
      else if isHashable item then
        fun s =>
          match s.find i with
          | none => none
          | some nd => some (Except.ok (lookupE nd.entries item).isSome, s)
      else throwE Err.typeErr) := rfl

theorem containsWalk_succ_nil (f : Nat) (cur : Val) :
    containsWalk (f + 1) cur [] = mok true := rfl

theorem containsWalk_succ_cons (f : Nat) (cur : Val) (x : PyKey) (rest : List PyKey) :
    containsWalk (f + 1) cur (x :: rest) =
      (if isHashable x then
        match cur with
        | Val.leaf _ => throwE Err.attrErr
        | Val.node j =>
          mbind (contains f j x) (fun b =>
            if b then mbind (getitem f j x) (fun v => containsWalk f v rest)
            else mok false)
      else throwE Err.typeErr) := rfl

theorem lookupN_map_ite (l : List (Nat × Node)) (i : Nat) (g : Node → Node) (j : Nat) :
    lookupN (l.map (fun p => if p.1 = i then (p.1, g p.2) else p)) j =
      if j = i then (lookupN l i).map g else lookupN l j := by
  induction l with
  | nil => by_cases h : j = i <;> simp [lookupN, h]
  | cons a rest ih =>
    obtain ⟨a1, a2⟩ := a
    rw [List.map_cons]
    have hd : (if (a1, a2).1 = i then ((a1, a2).1, g (a1, a2).2) else (a1, a2))
        = if a1 = i then (a1, g a2) else (a1, a2) := by
      by_cases h : a1 = i <;> simp [h]
    rw [hd]
    by_cases h1 : a1 = i
    · subst h1
      rw [if_pos rfl]
      simp only [lookupN]
      by_cases h2 : a1 = j
      · subst h2
        simp
      · have h3 : ¬ j = a1 := fun hh => h2 hh.symm
        simp [h2, h3, ih]
    · rw [if_neg h1]
      simp only [lookupN]
      by_cases h2 : a1 = j
      · subst h2
        simp [h1]
      · simp [h1, h2, ih]

theorem find_upd (s : St) (i : Nat) (g : Node → Node) (j : Nat) :
    (s.upd i g).find j = if j = i then (s.find i).map g else s.find j := by
  unfold St.find St.upd
  exact lookupN_map_ite s.nodes i g j

theorem lookupN_append (l1 l2 : List (Nat × Node)) (j : Nat) :
    lookupN (l1 ++ l2) j =
      match lookupN l1 j with
      | some nd => some nd
      | none => lookupN l2 j := by
  induction l1 with
  | nil => simp [lookupN]
  | cons a rest ih =>
    by_cases h : a.1 = j <;> simp [lookupN, h, ih]

theorem lookupN_none_of_lt (l : List (Nat × Node)) (n : Nat)
    (h : ∀ p, p ∈ l → p.1 < n) : lookupN l n = none := by
  induction l with
  | nil => rfl
  | cons a rest ih =>
    have ha : a.1 < n := h a (by simp)
    have hne : ¬ a.1 = n := Nat.ne_of_lt ha
    rw [show lookupN (a :: rest) n = if a.1 = n then some a.2 else lookupN rest n from rfl]
    rw [if_neg hne]
    exact ih (fun p hp => h p (by simp [hp]))

theorem find_alloc (s : St) (j : Nat) (hok : IdsOk s) :
    (alloc s).2.find j = if j = s.next then some Node.empty else s.find j := by
  unfold alloc St.find
  simp only [lookupN_append]
  by_cases h : j = s.next
  · subst h
    rw [lookupN_none_of_lt s.nodes s.next hok]
    simp [lookupN]
  · cases hf : lookupN s.nodes j with
    | some nd => simp [h, hf]
    | none =>
      have h2 : ¬ s.next = j := fun hh => h hh.symm
      simp [lookupN, h, hf, h2]

theorem lookupE_insertE (es : List (PyKey × Val)) (k : PyKey) (v : Val) (k' : PyKey) :
    lookupE (insertE es k v) k' = if k' = k then some v else lookupE es k' := by
  induction es with
  | nil =>
    by_cases h : k' = k
    · subst h; simp [insertE, lookupE]
    · have h2 : ¬ k = k' := fun hh => h hh.symm
      simp [insertE, lookupE, h, h2]
  | cons a rest ih =>
    obtain ⟨a1, a2⟩ := a
    by_cases h1 : a1 = k
    · subst h1
      rw [show insertE ((a1, a2) :: rest) a1 v = (a1, v) :: rest from by simp [insertE]]
      by_cases h2 : k' = a1
      · subst h2; simp [lookupE]
      · have h3 : ¬ a1 = k' := fun hh => h2 hh.symm
        simp [lookupE, h2, h3]
    · rw [show insertE ((a1, a2) :: rest) k v = (a1, a2) :: insertE rest k v from by
        simp [insertE, h1]]
      by_cases h2 : a1 = k'
      · subst h2
        have h3 : ¬ a1 = k := h1
        simp [lookupE, h3, fun hh : a1 = k => h1 hh]
      · simp [lookupE, h2, ih]

theorem lookupE_eraseE_ne (es : List (PyKey × Val)) (k k' : PyKey) (h : ¬ k' = k) :
    lookupE (eraseE es k) k' = lookupE es k' := by
  induction es with
  | nil => simp [eraseE]
  | cons a rest ih =>
    obtain ⟨a1, a2⟩ := a
    by_cases h1 : a1 = k
    · subst h1
      rw [show eraseE ((a1, a2) :: rest) a1 = rest from by simp [eraseE]]
      have h2 : ¬ a1 = k' := fun hh => h (hh ▸ rfl)
      simp [lookupE, h2]
    · rw [show eraseE ((a1, a2) :: rest) k = (a1, a2) :: eraseE rest k from by
        simp [eraseE, h1]]
      by_cases h2 : a1 = k' <;> simp [lookupE, h2, ih]

theorem lookupE_mem_keys (es : List (PyKey × Val)) (k : PyKey) (v : Val)
    (h : lookupE es k = some v) : k ∈ es.map Prod.fst := by
  induction es with
  | nil => simp [lookupE] at h
  | cons a rest ih =>
    by_cases h1 : a.1 = k
    · simp [h1]
    · rw [show lookupE (a :: rest) k = if a.1 = k then some a.2 else lookupE rest k from by
        obtain ⟨a1, a2⟩ := a; rfl] at h
      rw [if_neg h1] at h
      simp [ih h]

theorem lookupE_eraseE_self (es : List (PyKey × Val)) (k : PyKey)
    (h : (es.map Prod.fst).Nodup) : lookupE (eraseE es k) k = none := by
  induction es with
  | nil => simp [eraseE, lookupE]
  | cons a rest ih =>
    obtain ⟨a1, a2⟩ := a
    simp only [List.map_cons, List.nodup_cons] at h
    by_cases h1 : a1 = k
    · subst h1
      rw [show eraseE ((a1, a2) :: rest) a1 = rest from by simp [eraseE]]
      cases hl : lookupE rest a1 with
      | none => rfl
      | some v => exact absurd (lookupE_mem_keys rest a1 v hl) h.1
    · rw [show eraseE ((a1, a2) :: rest) k = (a1, a2) :: eraseE rest k from by
        simp [eraseE, h1]]
      simp [lookupE, h1, ih h.2]

theorem keys_insertE_mem (es : List (PyKey × Val)) (k : PyKey) (v : Val) (x : PyKey)
    (h : x ∈ (insertE es k v).map Prod.fst) : x ∈ es.map Prod.fst ∨ x = k := by
  induction es with
  | nil => simp [insertE] at h; right; exact h
  | cons a rest ih =>
    obtain ⟨a1, a2⟩ := a
    by_cases h1 : a1 = k
    · subst h1
      rw [show insertE ((a1, a2) :: rest) a1 v = (a1, v) :: rest from by simp [insertE]] at h
      simp only [List.map_cons, List.mem_cons] at h
      rcases h with h2 | h2
      · left; simp [h2]
      · left; simp [h2]
    · rw [show insertE ((a1, a2) :: rest) k v = (a1, a2) :: insertE rest k v from by
        simp [insertE, h1]] at h
      simp only [List.map_cons, List.mem_cons] at h
      rcases h with h2 | h2
      · left; simp [h2]
      · rcases ih h2 with h3 | h3
        · left; simp [h3]
        · right; exact h3

theorem keys_insertE_nodup (es : List (PyKey × Val)) (k : PyKey) (v : Val)
    (h : (es.map Prod.fst).Nodup) : ((insertE es k v).map Prod.fst).Nodup := by
  induction es with
  | nil => simp [insertE]
  | cons a rest ih =>
    obtain ⟨a1, a2⟩ := a
    simp only [List.map_cons, List.nodup_cons] at h
    by_cases h1 : a1 = k
    · subst h1
      rw [show insertE ((a1, a2) :: rest) a1 v = (a1, v) :: rest from by simp [insertE]]
      simp only [List.map_cons, List.nodup_cons]
      exact h
    · rw [show insertE ((a1, a2) :: rest) k v = (a1, a2) :: insertE rest k v from by
        simp [insertE, h1]]
      simp only [List.map_cons, List.nodup_cons]
      refine ⟨?_, ih h.2⟩
      intro hmem
      rcases keys_insertE_mem rest k v a1 hmem with h2 | h2
      · exact h.1 h2
      · exact h1 h2

theorem keys_eraseE_sub (es : List (PyKey × Val)) (k : PyKey) (x : PyKey)
    (h : x ∈ (eraseE es k).map Prod.fst) : x ∈ es.map Prod.fst := by
  induction es with
  | nil => simp [eraseE] at h
  | cons a rest ih =>
    obtain ⟨a1, a2⟩ := a
    by_cases h1 : a1 = k
    · subst h1
      rw [show eraseE ((a1, a2) :: rest) a1 = rest from by simp [eraseE]] at h
      simp [h]
    · rw [show eraseE ((a1, a2) :: rest) k = (a1, a2) :: eraseE rest k from by
        simp [eraseE, h1]] at h
      simp only [List.map_cons, List.mem_cons] at h
      rcases h with h2 | h2
      · simp [h2]
      · simp [ih h2]

theorem keys_eraseE_nodup (es : List (PyKey × Val)) (k : PyKey)
    (h : (es.map Prod.fst).Nodup) : ((eraseE es k).map Prod.fst).Nodup := by
  induction es with
  | nil => simp [eraseE]
  | cons a rest ih =>
    obtain ⟨a1, a2⟩ := a
    simp only [List.map_cons, List.nodup_cons] at h
    by_cases h1 : a1 = k
    · subst h1
      rw [show eraseE ((a1, a2) :: rest) a1 = rest from by simp [eraseE]]
      exact h.2
    · rw [show eraseE ((a1, a2) :: rest) k = (a1, a2) :: eraseE rest k from by
        simp [eraseE, h1]]
      simp only [List.map_cons, List.nodup_cons]
      exact ⟨fun hm => h.1 (keys_eraseE_sub rest k a1 hm), ih h.2⟩

theorem mbind_ok {α β : Type} (x : M α) (g : α → M β) (s s1 : St) (a : α)
    (h : x s = some (Except.ok a, s1)) : mbind x g s = g a s1 := by
  unfold mbind; rw [h]

theorem mbind_err {α β : Type} (x : M α) (g : α → M β) (s s1 : St) (e : Err)
    (h : x s = some (Except.error e, s1)) :
    mbind x g s = some (Except.error e, s1) := by
  unfold mbind; rw [h]

theorem mbind_none {α β : Type} (x : M α) (g : α → M β) (s : St)
    (h : x s = none) : mbind x g s = none := by
  unfold mbind; rw [h]

theorem mbind_inv {α β : Type} {x : M α} {g : α → M β} {s s2 : St} {r : Except Err β}
    (h : mbind x g s = some (r, s2)) :
    (∃ e, x s = some (Except.error e, s2) ∧ r = Except.error e) ∨
      (∃ a s1, x s = some (Except.ok a, s1) ∧ g a s1 = some (r, s2)) := by
  cases hx : x s with
  | none => rw [mbind_none x g s hx] at h; exact absurd h (by simp)
  | some p =>
    obtain ⟨re, s1⟩ := p
    cases re with
    | error e =>
      rw [mbind_err x g s s1 e hx] at h
      have h2 : Except.error e = r ∧ s1 = s2 := by simpa using h
      obtain ⟨h2, h3⟩ := h2
      subst h2; subst h3
      exact Or.inl ⟨e, rfl, rfl⟩
    | ok a =>
      rw [mbind_ok x g s s1 a hx] at h
      exact Or.inr ⟨a, s1, rfl, h⟩

theorem catchKey_ok {α : Type} (x h : M α) (s s1 : St) (a : α)
    (hx : x s = some (Except.ok a, s1)) : catchKey x h s = some (Except.ok a, s1) := by
  unfold catchKey; rw [hx]

theorem catchKey_key {α : Type} (x h : M α) (s s1 : St)
    (hx : x s = some (Except.error Err.keyErr, s1)) : catchKey x h s = h s1 := by
  unfold catchKey; rw [hx]

theorem catchKey_err {α : Type} (x h : M α) (s s1 : St) (e : Err)
    (hx : x s = some (Except.error e, s1)) (hne : ¬ e = Err.keyErr) :
    catchKey x h s = some (Except.error e, s1) := by
  unfold catchKey; rw [hx]
  cases e <;> first | rfl | exact absurd rfl hne

theorem catchKey_none {α : Type} (x h : M α) (s : St)
    (hx : x s = none) : catchKey x h s = none := by
  unfold catchKey; rw [hx]

theorem catchKey_inv {α : Type} {x h : M α} {s s2 : St} {r : Except Err α}
    (hc : catchKey x h s = some (r, s2)) :
    (x s = some (r, s2) ∧ ∀ e, r = Except.error e → ¬ e = Err.keyErr) ∨
      (∃ s1, x s = some (Except.error Err.keyErr, s1) ∧ h s1 = some (r, s2)) := by
  cases hx : x s with
  | none => rw [catchKey_none x h s hx] at hc; exact absurd hc (by simp)
  | some p =>
    obtain ⟨re, s1⟩ := p
    cases re with
    | ok a =>
      rw [catchKey_ok x h s s1 a hx] at hc
      have h2 : Except.ok a = r ∧ s1 = s2 := by simpa using hc
      obtain ⟨h2, h3⟩ := h2
      subst h2; subst h3
      exact Or.inl ⟨rfl, fun e he => nomatch he⟩
    | error e =>
      by_cases hek : e = Err.keyErr
      · subst hek
        right
        exact ⟨s1, rfl, by rw [← catchKey_key x h s s1 hx]; exact hc⟩
      · rw [catchKey_err x h s s1 e hx hek] at hc
        have h2 : Except.error e = r ∧ s1 = s2 := by simpa using hc
        obtain ⟨h2, h3⟩ := h2
        subst h2; subst h3
        refine Or.inl ⟨rfl, ?_⟩
        intro e2 he2
        injection he2 with h4
        rw [← h4]
        exact hek

theorem catchKV_ok {α : Type} (x h : M α) (s s1 : St) (a : α)
    (hx : x s = some (Except.ok a, s1)) : catchKV x h s = some (Except.ok a, s1) := by
  unfold catchKV; rw [hx]

theorem catchKV_key {α : Type} (x h : M α) (s s1 : St)
    (hx : x s = some (Except.error Err.keyErr, s1)) : catchKV x h s = h s1 := by
  unfold catchKV; rw [hx]

theorem catchKV_val {α : Type} (x h : M α) (s s1 : St)
    (hx : x s = some (Except.error Err.valueErr, s1)) : catchKV x h s = h s1 := by
  unfold catchKV; rw [hx]

theorem catchKV_err {α : Type} (x h : M α) (s s1 : St) (e : Err)
    (hx : x s = some (Except.error e, s1)) (h1 : ¬ e = Err.keyErr)
    (h2 : ¬ e = Err.valueErr) : catchKV x h s = some (Except.error e, s1) := by
  unfold catchKV; rw [hx]
  cases e <;> first | rfl | exact absurd rfl h1 | exact absurd rfl h2

theorem catchKV_none {α : Type} (x h : M α) (s : St)
    (hx : x s = none) : catchKV x h s = none := by
  unfold catchKV; rw [hx]

theorem catchKV_inv {α : Type} {x h : M α} {s s2 : St} {r : Except Err α}
    (hc : catchKV x h s = some (r, s2)) :
    (x s = some (r, s2) ∧ ∀ e, r = Except.error e → ¬ e = Err.keyErr ∧ ¬ e = Err.valueErr) ∨
      (∃ s1, (x s = some (Except.error Err.keyErr, s1) ∨
              x s = some (Except.error Err.valueErr, s1)) ∧ h s1 = some (r, s2)) := by
  cases hx : x s with
  | none => rw [catchKV_none x h s hx] at hc; exact absurd hc (by simp)
  | some p =>
    obtain ⟨re, s1⟩ := p
    cases re with
    | ok a =>
      rw [catchKV_ok x h s s1 a hx] at hc
      have h2 : Except.ok a = r ∧ s1 = s2 := by simpa using hc
      obtain ⟨h2, h3⟩ := h2
      subst h2; subst h3
      exact Or.inl ⟨rfl, fun e he => nomatch he⟩
    | error e =>
      by_cases hek : e = Err.keyErr
      · subst hek
        right
        exact ⟨s1, Or.inl rfl, by rw [← catchKV_key x h s s1 hx]; exact hc⟩
      · by_cases hev : e = Err.valueErr
        · subst hev
          right
          exact ⟨s1, Or.inr rfl, by rw [← catchKV_val x h s s1 hx]; exact hc⟩
        · rw [catchKV_err x h s s1 e hx hek hev] at hc
          have h2 : Except.error e = r ∧ s1 = s2 := by simpa using hc
          obtain ⟨h2, h3⟩ := h2
          subst h2; subst h3
          refine Or.inl ⟨rfl, ?_⟩
          intro e2 he2
          injection he2 with h4
          rw [← h4]
          exact ⟨hek, hev⟩

theorem lockedM_eval (f : Nat) (i : Nat) (s : St) (b : Bool)
    (h : lockedE f s i = some b) : lockedM f i s = some (Except.ok b, s) := by
  unfold lockedM; rw [h]

theorem lockedM_none (f : Nat) (i : Nat) (s : St)
    (h : lockedE f s i = none) : lockedM f i s = none := by
  unfold lockedM; rw [h]

theorem lockedM_inv {f : Nat} {i : Nat} {s s1 : St} {r : Except Err Bool}
    (h : lockedM f i s = some (r, s1)) :
    ∃ b, lockedE f s i = some b ∧ r = Except.ok b ∧ s1 = s := by
  unfold lockedM at h
  cases hl : lockedE f s i with
  | none => rw [hl] at h; exact absurd h (by simp)
  | some b =>
    rw [hl] at h
    simp only [Option.some.injEq, Prod.mk.injEq] at h
    exact ⟨b, rfl, h.1.symm, h.2.symm⟩

theorem find_leaveParent (s : St) (j i : Nat) :
    (leaveParent s j).find i =
      if i = j then
        (s.find j).map (fun nd => { nd with parent := none, root := none, key := none })
      else s.find i := by
  unfold leaveParent setLink
  exact find_upd s j _ i

theorem find_setLink (s : St) (m : Nat) (p r : Option Nat) (k : Option PyKey)
    (i : Nat) :
    (setLink s m p r k).find i =
      if i = m then (s.find m).map (fun nd => { nd with parent := p, root := r, key := k })
      else s.find i := by
  unfold setLink
  exact find_upd s m _ i

theorem find_setEntries (s : St) (m : Nat) (es : List (PyKey × Val)) (i : Nat) :
    (setEntries s m es).find i =
      if i = m then (s.find m).map (fun nd => { nd with entries := es })
      else s.find i := by
  unfold setEntries
  exact find_upd s m _ i

theorem upd_upd_same (s : St) (i : Nat) (g1 g2 : Node → Node) :
    (s.upd i g1).upd i g2 = s.upd i (fun nd => g2 (g1 nd)) := by
  unfold St.upd
  simp only [List.map_map]
  have hfun : ∀ p : Nat × Node,
      ((fun q : Nat × Node => if q.1 = i then (q.1, g2 q.2) else q) ∘
       (fun q : Nat × Node => if q.1 = i then (q.1, g1 q.2) else q)) p =
      (fun q : Nat × Node => if q.1 = i then (q.1, g2 (g1 q.2)) else q) p := by
    intro p
    by_cases hp : p.1 = i
    · simp [Function.comp, hp]
    · simp [Function.comp, hp]
  rw [funext hfun]

theorem setParent_upd_rootkey (s : St) (i : Nat) (pa r : Option Nat)
    (k : Option PyKey) :
    (setParent s i pa).upd i (fun nd => { nd with root := r, key := k }) =
      setLink s i pa r k := by
  unfold setParent setLink
  rw [upd_upd_same]

theorem find_setParent (s : St) (m : Nat) (pa : Option Nat) (i : Nat) :
    (setParent s m pa).find i =
      if i = m then (s.find m).map (fun nd => { nd with parent := pa })
      else s.find i := by
  unfold setParent
  exact find_upd s m _ i

theorem joinParent_some (f : Nat) (s : St) (i pa : Nat) (k : PyKey) (r : Nat)
    (hr : rootE f (setParent s i (some pa)) pa = some r) :
    joinParent f s i pa k = some (setLink s i (some pa) (some r) (some k)) := by
  unfold joinParent
  rw [hr]
  show some ((setParent s i (some pa)).upd i
    (fun nd => { nd with root := some r, key := some k })) = _
  rw [setParent_upd_rootkey]

theorem joinParent_nofuel (f : Nat) (s : St) (i pa : Nat) (k : PyKey)
    (hr : rootE f (setParent s i (some pa)) pa = none) :
    joinParent f s i pa k = none := by
  unfold joinParent
  rw [hr]

theorem contains_scalar_eval (f : Nat) (i : Nat) (key : PyKey) (s : St) (nd : Node)
    (hh : isHashable key = true) (hf : s.find i = some nd) :
    contains (f + 1) i key s = some (Except.ok (lookupE nd.entries key).isSome, s) := by
  rw [contains_succ, hh]
  simp only [Bool.not_true, Bool.false_and, Bool.false_eq_true, if_false, if_true, hf]

theorem superGet_present (i : Nat) (key : PyKey) (s : St) (nd : Node) (v : Val)
    (hh : isHashable key = true) (hf : s.find i = some nd)
    (hl : lookupE nd.entries key = some v) :
    superGet i key s = some (Except.ok v, s) := by
  unfold superGet
  simp [hf, hh, hl]

theorem superGet_absent (i : Nat) (key : PyKey) (s : St) (nd : Node)
    (hh : isHashable key = true) (hf : s.find i = some nd)
    (hl : lookupE nd.entries key = none) :
    superGet i key s = some (Except.error Err.keyErr, s) := by
  unfold superGet
  simp [hf, hh, hl]

theorem getitem_scalar_present (f : Nat) (i : Nat) (key : PyKey) (s : St) (nd : Node)
    (v : Val) (hsk : issequence key = false) (hh : isHashable key = true)
    (hf : s.find i = some nd) (hl : lookupE nd.entries key = some v) :
    getitem (f + 1) i key s = some (Except.ok v, s) := by
  unfold getitem
  rw [hsk]
  simp only [Bool.false_eq_true, if_false]
  exact catchKV_ok _ _ s s v (superGet_present i key s nd v hh hf hl)

theorem getitem_scalar_absent (f : Nat) (i : Nat) (key : PyKey) (s : St) (nd : Node)
    (hsk : issequence key = false) (hh : isHashable key = true)
    (hf : s.find i = some nd) (hl : lookupE nd.entries key = none) :
    getitem (f + 1) i key s = missing f i key s := by
  unfold getitem
  rw [hsk]
  simp only [Bool.false_eq_true, if_false]
  exact catchKV_key _ _ s s (superGet_absent i key s nd hh hf hl)

theorem storeSet_eval (i : Nat) (key : PyKey) (v : Val) (s : St) (nd : Node)
    (hf : s.find i = some nd) :
    storeSet i key v s = some (Except.ok (), setEntries s i (insertE nd.entries key v)) := by
  unfold storeSet; rw [hf]

/-- The state after `__setitem__` has detached a stored child found at
the target key (no change when the slot is empty or holds a leaf). -/
def occLeave (s : St) (nd : Node) (key : PyKey) : St :=
  match lookupE nd.entries key with
  | some (Val.node j) => leaveParent s j
  | _ => s

theorem find_entries_occLeave (s : St) (nd : Node) (key : PyKey) (i : Nat) (nd0 : Node)
    (hf : s.find i = some nd0) :
    ∃ nd1, (occLeave s nd key).find i = some nd1 ∧ nd1.entries = nd0.entries := by
  unfold occLeave
  cases hocc : lookupE nd.entries key with
  | none => exact ⟨nd0, hf, rfl⟩
  | some v =>
    cases v with
    | leaf n => exact ⟨nd0, hf, rfl⟩
    | node j =>
      rw [find_leaveParent]
      by_cases hij : i = j
      · subst hij
        rw [if_pos rfl, hf]
        exact ⟨_, rfl, rfl⟩
      · rw [if_neg hij]
        exact ⟨nd0, hf, rfl⟩

theorem setitem_plain_leaf (f : Nat) (i : Nat) (key : PyKey) (n : Int) (s : St)
    (nd : Node) (hsk : issequence key = false) (hh : isHashable key = true)
    (hf : s.find i = some nd) (hl : lockedE (f + 1) s i = some false) :
    setitem (f + 2) i key (some (Val.leaf n)) s =
      some (Except.ok (),
        setEntries (occLeave s nd key) i (insertE nd.entries key (Val.leaf n))) := by
  have e1 : lockedM (f + 1) i s = some (Except.ok false, s) := lockedM_eval _ _ _ _ hl
  have e2 : contains (f + 1) i key s =
      some (Except.ok (lookupE nd.entries key).isSome, s) :=
    contains_scalar_eval f i key s nd hh hf
  show setitem (f + 1 + 1) i key (some (Val.leaf n)) s = _
  rw [setitem_succ]
  rw [mbind_ok _ _ _ _ _ e1]
  simp only [Bool.false_eq_true, if_false, hsk]
  cases hocc : lookupE nd.entries key with
  | none =>
    have hbody : (mbind (contains (f + 1) i key) (fun c =>
        mbind (if c then mbind (getitem (f + 1) i key) leaveIfNode else mok ())
          (fun _ => mbind (joinIfNode (f + 1) (Val.leaf n) i key)
            (fun _ => storeSet i key (Val.leaf n))))) s =
        some (Except.ok (), setEntries s i (insertE nd.entries key (Val.leaf n))) := by
      rw [mbind_ok _ _ _ _ _ e2]
      simp only [hocc, Option.isSome_none, Bool.false_eq_true, if_false]
      rw [mbind_ok _ _ _ _ _ (show mok () s = some (Except.ok (), s) from rfl)]
      rw [mbind_ok _ _ _ _ _ (show joinIfNode (f + 1) (Val.leaf n) i key s =
        some (Except.ok (), s) from rfl)]
      exact storeSet_eval i key (Val.leaf n) s nd hf
    rw [catchKey_ok _ _ _ _ _ hbody]
    unfold occLeave
    rw [hocc]
  | some d0 =>
    have e3 : getitem (f + 1) i key s = some (Except.ok d0, s) :=
      getitem_scalar_present f i key s nd d0 hsk hh hf hocc
    obtain ⟨nd1, hf1, hent1⟩ := find_entries_occLeave s nd key i nd hf
    have hlv : leaveIfNode d0 s = some (Except.ok (), occLeave s nd key) := by
      unfold occLeave
      rw [hocc]
      cases d0 with
      | leaf m => rfl
      | node j => rfl
    have hbody : (mbind (contains (f + 1) i key) (fun c =>
        mbind (if c then mbind (getitem (f + 1) i key) leaveIfNode else mok ())
          (fun _ => mbind (joinIfNode (f + 1) (Val.leaf n) i key)
            (fun _ => storeSet i key (Val.leaf n))))) s =
        some (Except.ok (),
          setEntries (occLeave s nd key) i (insertE nd.entries key (Val.leaf n))) := by
      rw [mbind_ok _ _ _ _ _ e2]
      simp only [hocc, Option.isSome_some, if_true]
      rw [mbind_ok _ _ _ _ _ (mbind_ok _ _ _ _ _ e3 ▸ hlv :
        mbind (getitem (f + 1) i key) leaveIfNode s =
          some (Except.ok (), occLeave s nd key))]
      rw [mbind_ok _ _ _ _ _ (show joinIfNode (f + 1) (Val.leaf n) i key
        (occLeave s nd key) = some (Except.ok (), occLeave s nd key) from rfl)]
      rw [storeSet_eval i key (Val.leaf n) (occLeave s nd key) nd1 hf1, hent1]
    rw [catchKey_ok _ _ _ _ _ hbody]

theorem setitem_plain_node (f : Nat) (i : Nat) (key : PyKey) (m : Nat) (s : St)
    (nd : Node) (r : Nat) (hsk : issequence key = false) (hh : isHashable key = true)
    (hf : s.find i = some nd) (hl : lockedE (f + 1) s i = some false)
    (hr : rootE (f + 1) (setParent (occLeave s nd key) m (some i)) i = some r) :
    setitem (f + 2) i key (some (Val.node m)) s =
      some (Except.ok (),
        setEntries (setLink (occLeave s nd key) m (some i) (some r) (some key)) i
          (insertE nd.entries key (Val.node m))) := by
  have e1 : lockedM (f + 1) i s = some (Except.ok false, s) := lockedM_eval _ _ _ _ hl
  have e2 : contains (f + 1) i key s =
      some (Except.ok (lookupE nd.entries key).isSome, s) :=
    contains_scalar_eval f i key s nd hh hf
  obtain ⟨nd1, hf1, hent1⟩ := find_entries_occLeave s nd key i nd hf
  have hjoin : joinIfNode (f + 1) (Val.node m) i key (occLeave s nd key) =
      some (Except.ok (), setLink (occLeave s nd key) m (some i) (some r) (some key)) := by
    unfold joinIfNode
    show (match joinParent (f + 1) (occLeave s nd key) m i key with
      | none => none
      | some s1 => some (Except.ok (), s1)) = _
    rw [joinParent_some (f + 1) (occLeave s nd key) m i key r hr]
  obtain ⟨nd2, hf2, hent2⟩ : ∃ nd2,
      (setLink (occLeave s nd key) m (some i) (some r) (some key)).find i = some nd2 ∧
        nd2.entries = nd1.entries := by
    rw [find_setLink]
    by_cases him : i = m
    · subst him
      rw [if_pos rfl, hf1]
      exact ⟨_, rfl, rfl⟩
    · rw [if_neg him]
      exact ⟨nd1, hf1, rfl⟩
  show setitem (f + 1 + 1) i key (some (Val.node m)) s = _
  rw [setitem_succ]
  rw [mbind_ok _ _ _ _ _ e1]
  simp only [Bool.false_eq_true, if_false, hsk]
  cases hocc : lookupE nd.entries key with
  | none =>
    have hso : occLeave s nd key = s := by unfold occLeave; rw [hocc]
    rw [hso] at hjoin hf2
    have hbody : (mbind (contains (f + 1) i key) (fun c =>
        mbind (if c then mbind (getitem (f + 1) i key) leaveIfNode else mok ())
          (fun _ => mbind (joinIfNode (f + 1) (Val.node m) i key)
            (fun _ => storeSet i key (Val.node m))))) s =
        some (Except.ok (),
          setEntries (setLink s m (some i) (some r) (some key)) i
            (insertE nd.entries key (Val.node m))) := by
      rw [mbind_ok _ _ _ _ _ e2]
      simp only [hocc, Option.isSome_none, Bool.false_eq_true, if_false]
      rw [mbind_ok _ _ _ _ _ (show mok () s = some (Except.ok (), s) from rfl)]
      rw [mbind_ok _ _ _ _ _ hjoin]
      rw [storeSet_eval i key (Val.node m) _ nd2 hf2, hent2, hent1]
    rw [catchKey_ok _ _ _ _ _ hbody]
    unfold occLeave
    rw [hocc]
  | some d0 =>
    have e3 : getitem (f + 1) i key s = some (Except.ok d0, s) :=
      getitem_scalar_present f i key s nd d0 hsk hh hf hocc
    have hlv : leaveIfNode d0 s = some (Except.ok (), occLeave s nd key) := by
      unfold occLeave
      rw [hocc]
      cases d0 with
      | leaf mm => rfl
      | node j => rfl
    have hbody : (mbind (contains (f + 1) i key) (fun c =>
        mbind (if c then mbind (getitem (f + 1) i key) leaveIfNode else mok ())
          (fun _ => mbind (joinIfNode (f + 1) (Val.node m) i key)
            (fun _ => storeSet i key (Val.node m))))) s =
        some (Except.ok (),
          setEntries (setLink (occLeave s nd key) m (some i) (some r) (some key)) i
            (insertE nd.entries key (Val.node m))) := by
      rw [mbind_ok _ _ _ _ _ e2]
      simp only [hocc, Option.isSome_some, if_true]
      rw [mbind_ok _ _ _ _ _ (mbind_ok _ _ _ _ _ e3 ▸ hlv :
        mbind (getitem (f + 1) i key) leaveIfNode s =
          some (Except.ok (), occLeave s nd key))]
      rw [mbind_ok _ _ _ _ _ hjoin]
      rw [storeSet_eval i key (Val.node m) _ nd2 hf2, hent2, hent1]
    rw [catchKey_ok _ _ _ _ _ hbody]

theorem setitem_plain_node_nofuel (f : Nat) (i : Nat) (key : PyKey) (m : Nat)
    (s : St) (nd : Node) (hsk : issequence key = false) (hh : isHashable key = true)
    (hf : s.find i = some nd) (hl : lockedE (f + 1) s i = some false)
    (hr : rootE (f + 1) (setParent (occLeave s nd key) m (some i)) i = none) :
    setitem (f + 2) i key (some (Val.node m)) s = none := by
  have e1 : lockedM (f + 1) i s = some (Except.ok false, s) := lockedM_eval _ _ _ _ hl
  have e2 : contains (f + 1) i key s =
      some (Except.ok (lookupE nd.entries key).isSome, s) :=
    contains_scalar_eval f i key s nd hh hf
  have hjoin : joinIfNode (f + 1) (Val.node m) i key (occLeave s nd key) = none := by
    unfold joinIfNode
    show (match joinParent (f + 1) (occLeave s nd key) m i key with
      | none => none
      | some s1 => some (Except.ok (), s1)) = none
    rw [joinParent_nofuel (f + 1) (occLeave s nd key) m i key hr]
  show setitem (f + 1 + 1) i key (some (Val.node m)) s = _
  rw [setitem_succ]
  rw [mbind_ok _ _ _ _ _ e1]
  simp only [Bool.false_eq_true, if_false, hsk]
  cases hocc : lookupE nd.entries key with
  | none =>
    have hso : occLeave s nd key = s := by unfold occLeave; rw [hocc]
    rw [hso] at hjoin
    have hbody : (mbind (contains (f + 1) i key) (fun c =>
        mbind (if c then mbind (getitem (f + 1) i key) leaveIfNode else mok ())
          (fun _ => mbind (joinIfNode (f + 1) (Val.node m) i key)
            (fun _ => storeSet i key (Val.node m))))) s = none := by
      rw [mbind_ok _ _ _ _ _ e2]
      simp only [hocc, Option.isSome_none, Bool.false_eq_true, if_false]
      rw [mbind_ok _ _ _ _ _ (show mok () s = some (Except.ok (), s) from rfl)]
      exact mbind_none _ _ _ hjoin
    rw [catchKey_none _ _ _ hbody]
  | some d0 =>
    have e3 : getitem (f + 1) i key s = some (Except.ok d0, s) :=
      getitem_scalar_present f i key s nd d0 hsk hh hf hocc
    have hlv : leaveIfNode d0 s = some (Except.ok (), occLeave s nd key) := by
      unfold occLeave
      rw [hocc]
      cases d0 with
      | leaf mm => rfl
      | node j => rfl
    have hbody : (mbind (contains (f + 1) i key) (fun c =>
        mbind (if c then mbind (getitem (f + 1) i key) leaveIfNode else mok ())
          (fun _ => mbind (joinIfNode (f + 1) (Val.node m) i key)
            (fun _ => storeSet i key (Val.node m))))) s = none := by
      rw [mbind_ok _ _ _ _ _ e2]
      simp only [hocc, Option.isSome_some, if_true]
      rw [mbind_ok _ _ _ _ _ (mbind_ok _ _ _ _ _ e3 ▸ hlv :
        mbind (getitem (f + 1) i key) leaveIfNode s =
          some (Except.ok (), occLeave s nd key))]
      exact mbind_none _ _ _ hjoin
    rw [catchKey_none _ _ _ hbody]

theorem lockedE_succ (f : Nat) (s : St) (i : Nat) :
    lockedE (f + 1) s i =
      match s.find i with
      | none => none
      | some nd =>
        match nd.parent with
        | none => some (nd.locked.getD false)
        | some p =>
          match nd.locked with
          | some b => some b
          | none => lockedE f s p := rfl

theorem rootE_succ (f : Nat) (s : St) (i : Nat) :
    rootE (f + 1) s i =
      match s.find i with
      | none => none
      | some nd =>
        match nd.parent with
        | none => some i
        | some p =>
          match nd.root with
          | some r => some r
          | none => rootE f s p := rfl

/-- C1: starting from a freshly created, unlocked, empty root, the call
`set(["a","b","c"], 1)` succeeds; the final heap is exactly `c1Result`,
in which the only objects reachable from the root are the two
autovivified intermediate containers at addresses ["a"] and ["a","b"]
and the leaf 1 stored under "c" (the fourth object, 3, is the detached
empty orphan the implementation autovivifies for the final segment and
immediately overwrites; it is unreachable from the root).  Afterwards
`get(["a","b","c"])` returns 1, `contains(["a","b"])` is true and
`contains(["a","b","x"])` is false, all without further mutation. -/
theorem c1_autovivification :
    setitem 12 0 (PyKey.lst [keyA, keyB, keyC]) (some (Val.leaf 1)) rootSt =
      some (Except.ok (), c1Result) ∧
    getitem 12 0 (PyKey.lst [keyA, keyB, keyC]) c1Result =
      some (Except.ok (Val.leaf 1), c1Result) ∧
    contains 12 0 (PyKey.lst [keyA, keyB]) c1Result = some (Except.ok true, c1Result) ∧
    contains 12 0 (PyKey.lst [keyA, keyB, keyX]) c1Result =
      some (Except.ok false, c1Result) ∧
    addressE 12 c1Result 1 = some [some keyA] ∧
    addressE 12 c1Result 2 = some [some keyA, some keyB] ∧
    c1Result.find 0 = some ⟨[(keyA, Val.node 1)], none, none, none, none⟩ ∧
    c1Result.find 1 = some ⟨[(keyB, Val.node 2)], some 0, some 0, none, some keyA⟩ ∧
    c1Result.find 2 = some ⟨[(keyC, Val.leaf 1)], some 1, some 0, none, some keyB⟩ ∧
    c1Result.find 3 = some ⟨[], none, none, none, none⟩ := by
  refine ⟨by decide, by decide, by decide, by decide, ?_, ?_, by decide, by decide,
    by decide, by decide⟩ <;> decide

/-- C7 counterexample: the tuple ("a",) is a hashable sequence; the
claim says every single hashable key gets a direct shallow lookup, so
`get(("a",))` on a root storing the leaf 7 under exactly that tuple key
would return 7 without touching the tree.  Instead `__getitem__`
classifies the tuple with `issequence` (which ignores hashability),
resolves it as a path, autovivifies a child under "a" and returns that
fresh child. -/
theorem c7_counterexample :
    isHashable (PyKey.tup [keyA]) = true ∧
    issequence (PyKey.tup [keyA]) = true ∧
    c7St.find 0 = some ⟨[(PyKey.tup [keyA], Val.leaf 7)], none, none, none, none⟩ ∧
    lockedE 1 c7St 0 = some false ∧
    getitem 12 0 (PyKey.tup [keyA]) c7St = some (Except.ok (Val.node 1), c7Mut) ∧
    ¬ getitem 12 0 (PyKey.tup [keyA]) c7St = some (Except.ok (Val.leaf 7), c7St) := by
  refine ⟨by decide, by decide, by decide, by decide, by decide, by decide⟩

/-- C6 counterexample: `[("a",)]` is a non-empty non-hashable sequence
whose single element is hashable, yet `contains` mutates the tree while
walking it: the membership test for the tuple succeeds shallowly, the
subsequent `__getitem__` resolves the tuple as a path, autovivifies a
child under "a", and the call returns true having grown the tree. -/
theorem c6_counterexample :
    isHashable (PyKey.lst [PyKey.tup [keyA]]) = false ∧
    issequence (PyKey.lst [PyKey.tup [keyA]]) = true ∧
    isHashable (PyKey.tup [keyA]) = true ∧
    contains 12 0 (PyKey.lst [PyKey.tup [keyA]]) c6St = some (Except.ok true, c6Mut) ∧
    ¬ c6Mut = c6St := by
  refine ⟨by decide, by decide, by decide, by decide, by decide⟩

/-- C4 counterexample: the claim quantifies over all `NestedMap` values
X and Y, so it also covers `set("a", X)` twice with the same X.  After
the second call X is reattached, its parent is the root again, and it
is still reachable from the root, contradicting the claimed
`X.parent is none` and unreachability. -/
theorem c4_counterexample :
    setitem 12 0 keyA (some (Val.node 1)) c4St = some (Except.ok (), c4Mid) ∧
    setitem 12 0 keyA (some (Val.node 1)) c4Mid = some (Except.ok (), c4Mid) ∧
    (c4Mid.find 1).map Node.parent = some (some 0) ∧
    ¬ (c4Mid.find 1).map Node.parent = some none := by
  refine ⟨by decide, by decide, by decide, by decide⟩

/-- C8 counterexample: the claim demands one uniform invalid-path error
for zero-length compound keys across operations.  On an unlocked fresh
root `contains([])` raises `ValueError` (the invalid-path error the
spec names) but `set([], 1)` raises `IndexError` — it never guards the
empty path and crashes reading `key[0]` — so the failure mode is not
uniform. -/
theorem c8_counterexample :
    contains 5 0 (PyKey.lst []) rootSt = some (Except.error Err.valueErr, rootSt) ∧
    setitem 5 0 (PyKey.lst []) (some (Val.leaf 1)) rootSt =
      some (Except.error Err.indexErr, rootSt) ∧
    ¬ Err.indexErr = Err.valueErr := by
  refine ⟨by decide, by decide, by decide⟩

/-- C2: on any object whose effective lock state is true, `set` and
`delete` raise the locked-state `RuntimeError` for every key and leave
the heap unchanged; `get` of an absent plain hashable key raises
`KeyError` instead of autovivifying, and `get` of a compound key whose
path resolution raises (an absent segment, or the invalid empty path)
also surfaces `KeyError` from the missing-key handler, again without
any mutation. -/
theorem c2_locked_rejects (f : Nat) (s : St) (i : Nat)
    (hl : lockedE f s i = some true) :
    (∀ key v?, setitem (f + 1) i key v? s = some (Except.error Err.lockedErr, s)) ∧
    (∀ key, delitem (f + 1) i key s = some (Except.error Err.lockedErr, s)) ∧
    (∀ key nd, issequence key = false → isHashable key = true → s.find i = some nd →
      lookupE nd.entries key = none →
      getitem (f + 2) i key s = some (Except.error Err.keyErr, s)) ∧
    (∀ key, issequence key = true →
      (parseaddr s i (seqElems key) = Except.error Err.keyErr ∨
       parseaddr s i (seqElems key) = Except.error Err.valueErr) →
      getitem (f + 2) i key s = some (Except.error Err.keyErr, s)) := by
  have hmiss : ∀ key, missing (f + 1) i key s = some (Except.error Err.keyErr, s) := by
    intro key
    rw [missing_succ, mbind_ok _ _ _ _ _ (lockedM_eval f i s true hl)]
    rfl
  refine ⟨?_, ?_, ?_, ?_⟩
  · intro key v?
    rw [setitem_succ, mbind_ok _ _ _ _ _ (lockedM_eval f i s true hl)]
    rfl
  · intro key
    rw [delitem_succ, mbind_ok _ _ _ _ _ (lockedM_eval f i s true hl)]
    rfl
  · intro key nd hsk hh hf habs
    rw [show (f + 2 : Nat) = f + 1 + 1 from rfl]
    rw [getitem_succ]
    rw [hsk]
    simp only [Bool.false_eq_true, if_false]
    rw [catchKV_key _ _ s s (superGet_absent i key s nd hh hf habs)]
    exact hmiss key
  · intro key hsk hpa
    rw [show (f + 2 : Nat) = f + 1 + 1 from rfl]
    rw [getitem_succ]
    rw [hsk]
    simp only [if_true]
    rcases hpa with hpa | hpa
    · rw [catchKV_key _ _ s s (show (fun s2 : St =>
        some (parseaddr s2 i (seqElems key), s2)) s =
          some (Except.error Err.keyErr, s) by show some _ = _; rw [hpa])]
      exact hmiss key
    · rw [catchKV_val _ _ s s (show (fun s2 : St =>
        some (parseaddr s2 i (seqElems key), s2)) s =
          some (Except.error Err.valueErr, s) by show some _ = _; rw [hpa])]
      exact hmiss key

/-- C2 witness: a concrete explicitly locked root rejects a plain set,
a delete, a plain get of the absent key "a" and a compound get of the
absent path ["a","b"], each with the stated exception and no mutation. -/
theorem c2_locked_rejects_witness :
    lockedE 1 c2St 0 = some true ∧
    setitem 2 0 keyA (some (Val.leaf 1)) c2St = some (Except.error Err.lockedErr, c2St) ∧
    delitem 2 0 keyA c2St = some (Except.error Err.lockedErr, c2St) ∧
    getitem 3 0 keyA c2St = some (Except.error Err.keyErr, c2St) ∧
    getitem 3 0 (PyKey.lst [keyA, keyB]) c2St = some (Except.error Err.keyErr, c2St) :=
  ⟨by decide,
   (c2_locked_rejects 1 c2St 0 (by decide)).1 keyA (some (Val.leaf 1)),
   (c2_locked_rejects 1 c2St 0 (by decide)).2.1 keyA,
   (c2_locked_rejects 1 c2St 0 (by decide)).2.2.1 keyA
     ⟨[], none, none, some true, none⟩ (by decide) (by decide) (by decide) (by decide),
   (c2_locked_rejects 1 c2St 0 (by decide)).2.2.2 (PyKey.lst [keyA, keyB])
     (by decide) (Or.inl (by decide))⟩

/-- C10: `__leave_parent__` clears exactly the parent, root-cache and
own-key attributes of the object it is called on and touches no other
object (in particular no strict descendant); `__join_parent__` likewise
rewrites only those three attributes of the attached object; and
`root()` on any object with a parent and a set root cache returns the
cached identity without recomputation, so after detaching an ancestor
the descendant still reports its former top-level ancestor. -/
theorem c10_linkage_frame (s : St) (X : Nat) :
    (∀ j, ¬ j = X → (leaveParent s X).find j = s.find j) ∧
    (∀ nd, s.find X = some nd →
      (leaveParent s X).find X = some ⟨nd.entries, none, none, nd.locked, none⟩) ∧
    (∀ f pa k s2, joinParent f s X pa k = some s2 →
      (∀ j, ¬ j = X → s2.find j = s.find j) ∧
      (∀ nd, s.find X = some nd →
        ∃ rr, rootE f (setParent s X (some pa)) pa = some rr ∧
          s2.find X = some ⟨nd.entries, some pa, some rr, nd.locked, some k⟩)) ∧
    (∀ f d nd p r, ¬ d = X → s.find d = some nd → nd.parent = some p →
      nd.root = some r → rootE (f + 1) (leaveParent s X) d = some r) := by
  refine ⟨?_, ?_, ?_, ?_⟩
  · intro j hj
    rw [find_leaveParent, if_neg hj]
  · intro nd hnd
    rw [find_leaveParent, if_pos rfl, hnd]
    rfl
  · intro f pa k s2 hjoin
    unfold joinParent at hjoin
    cases hr : rootE f (setParent s X (some pa)) pa with
    | none => rw [hr] at hjoin; exact absurd hjoin (by simp)
    | some rr =>
      rw [hr] at hjoin
      have h3 : some ((setParent s X (some pa)).upd X
          (fun nd => { nd with root := some rr, key := some k })) = some s2 := hjoin
      rw [setParent_upd_rootkey] at h3
      have hs2 : s2 = setLink s X (some pa) (some rr) (some k) :=
        (Option.some.injEq _ _ ▸ h3).symm
      subst hs2
      constructor
      · intro j hj
        rw [find_setLink, if_neg hj]
      · intro nd hnd
        refine ⟨rr, rfl, ?_⟩
        rw [find_setLink, if_pos rfl, hnd]
        rfl
  · intro f d nd p r hdX hfd hp hr
    rw [rootE_succ]
    rw [find_leaveParent, if_neg hdX, hfd]
    simp [hp, hr]

/-- C10 witness: in the three-level heap of the C1 scenario, detaching
the middle container 1 touches only the linkage of 1, and `root()` on
the grandchild 2 (cache set to 0) still answers 0 afterwards. -/
theorem c10_linkage_frame_witness :
    (leaveParent c1Result 1).find 2 = c1Result.find 2 ∧
    (leaveParent c1Result 1).find 1 =
      some ⟨[(keyB, Val.node 2)], none, none, none, none⟩ ∧
    rootE 3 (leaveParent c1Result 1) 2 = some 0 :=
  ⟨(c10_linkage_frame c1Result 1).1 2 (by decide),
   (c10_linkage_frame c1Result 1).2.1 ⟨[(keyB, Val.node 2)], some 0, some 0, none, some keyA⟩
     (by decide),
   (c10_linkage_frame c1Result 1).2.2.2 2 2
     ⟨[(keyC, Val.leaf 1)], some 1, some 0, none, some keyB⟩ 1 0
     (by decide) (by decide) (by decide) (by decide)⟩

/-- C8 amended: a zero-length compound key always fails, but not with
one uniform error class: `contains([])` raises the invalid-path
`ValueError` unconditionally, while on an effectively unlocked object
`set([], v)` and `get([])` raise `IndexError` (the unguarded `key[0]`),
in every case without mutating the heap. -/
theorem c8_amended (f : Nat) (s : St) (i : Nat) (v? : Option Val)
    (hl : lockedE f s i = some false) :
    (∀ g, contains (g + 1) i (PyKey.lst []) s = some (Except.error Err.valueErr, s)) ∧
    setitem (f + 1) i (PyKey.lst []) v? s = some (Except.error Err.indexErr, s) ∧
    getitem (f + 2) i (PyKey.lst []) s = some (Except.error Err.indexErr, s) ∧
    ¬ Err.indexErr = Err.valueErr := by
  refine ⟨fun g => rfl, ?_, ?_, by decide⟩
  · rw [setitem_succ, mbind_ok _ _ _ _ _ (lockedM_eval f i s false hl)]
    rfl
  · rw [show (f + 2 : Nat) = f + 1 + 1 from rfl, getitem_succ]
    rw [catchKV_val _ _ s s rfl]
    rw [missing_succ, mbind_ok _ _ _ _ _ (lockedM_eval f i s false hl)]
    rfl

/-- C8 amended witness: on the fresh unlocked root, `contains([])`
raises `ValueError` while `set([], 1)` and `get([])` raise `IndexError`. -/
theorem c8_amended_witness :
    lockedE 1 rootSt 0 = some false ∧
    contains 2 0 (PyKey.lst []) rootSt = some (Except.error Err.valueErr, rootSt) ∧
    setitem 2 0 (PyKey.lst []) (some (Val.leaf 1)) rootSt =
      some (Except.error Err.indexErr, rootSt) ∧
    getitem 3 0 (PyKey.lst []) rootSt = some (Except.error Err.indexErr, rootSt) :=
  ⟨by decide,
   (c8_amended 1 rootSt 0 (some (Val.leaf 1)) (by decide)).1 1,
   (c8_amended 1 rootSt 0 (some (Val.leaf 1)) (by decide)).2.1,
   (c8_amended 1 rootSt 0 (some (Val.leaf 1)) (by decide)).2.2.1⟩

/-- C7 amended: `get` resolves a key as a compound path exactly when
the key is an iterable that is not a string — hashability is never
consulted, so hashable sequences such as tuples also take the path
route.  For every other key the lookup is direct: a stored value is
returned unchanged, and an absent key invokes the missing-key handler
rather than failing immediately.  On the path route a resolvable path
returns its value and a failing resolution likewise goes through the
missing-key handler. -/
theorem c7_amended :
    (∀ k : PyKey, issequence k = true ↔ (isIterable k = true ∧ isString k = false)) ∧
    (∀ f i k s nd v, issequence k = false → isHashable k = true →
      St.find s i = some nd → lookupE nd.entries k = some v →
      getitem (f + 1) i k s = some (Except.ok v, s)) ∧
    (∀ f i k s nd, issequence k = false → isHashable k = true →
      St.find s i = some nd → lookupE nd.entries k = none →
      getitem (f + 1) i k s = missing f i k s) ∧
    (∀ f i k s v, issequence k = true → parseaddr s i (seqElems k) = Except.ok v →
      getitem (f + 1) i k s = some (Except.ok v, s)) ∧
    (∀ f i k s, issequence k = true →
      parseaddr s i (seqElems k) = Except.error Err.keyErr →
      getitem (f + 1) i k s = missing f i k s) := by
  refine ⟨?_, ?_, ?_, ?_, ?_⟩
  · intro k
    cases k <;> simp [issequence, isIterable, isString]
  · intro f i k s nd v hsk hh hf hl
    exact getitem_scalar_present f i k s nd v hsk hh hf hl
  · intro f i k s nd hsk hh hf hl
    exact getitem_scalar_absent f i k s nd hsk hh hf hl
  · intro f i k s v hsk hpa
    rw [getitem_succ, hsk]
    simp only [if_true]
    exact catchKV_ok _ _ s s v (by show some _ = _; rw [hpa])
  · intro f i k s hsk hpa
    rw [getitem_succ, hsk]
    simp only [if_true]
    exact catchKV_key _ _ s s (by show some _ = _; rw [hpa])

/-- C7 amended witness: in the C1 heap, the plain key "a" is looked up
directly, and the tuple key ("a","b") — hashable, yet an iterable
non-string — takes the path route and resolves to the deep container. -/
theorem c7_amended_witness :
    getitem 1 0 keyA c1Result = some (Except.ok (Val.node 1), c1Result) ∧
    getitem 1 0 (PyKey.tup [keyA, keyB]) c1Result =
      some (Except.ok (Val.node 2), c1Result) ∧
    isHashable (PyKey.tup [keyA, keyB]) = true :=
  ⟨c7_amended.2.1 0 0 keyA c1Result ⟨[(keyA, Val.node 1)], none, none, none, none⟩
     (Val.node 1) (by decide) (by decide) (by decide) (by decide),
   c7_amended.2.2.2.1 0 0 (PyKey.tup [keyA, keyB]) c1Result (Val.node 2)
     (by decide) (by decide),
   by decide⟩

/-- C3 counterexample: grandchild 2 has an unset own flag and is a
descendant of the root 0, but its parent 1 carries an explicit false
flag, so after `lock()` on 0 the effective state of 2 is still false —
locking does not change the effective state of every descendant whose
own flag is unset, only of those whose whole chain up to the locked
node is unset. -/
theorem c3_counterexample :
    (c3St.find 2).map Node.locked = some none ∧
    Reach c3St 0 2 ∧
    lockedE 3 (lock c3St 0) 2 = some false ∧
    ¬ lockedE 3 (lock c3St 0) 2 = some true := by
  refine ⟨by decide, ?_, by decide, by decide⟩
  have h1 : Reach c3St 0 1 :=
    @Reach.step c3St 0 0 1 ⟨[(keyA, Val.node 1)], none, none, none, none⟩ keyA
      Reach.refl (by decide) (by decide)
  exact
    @Reach.step c3St 0 1 2 ⟨[(keyB, Val.node 2)], some 0, some 0, some false, some keyA⟩
      keyB h1 (by decide) (by decide)

/-- C3 amended: `lock()` and `unlock()` set the explicit flag on the
target object only, leaving every other object untouched; the
effective lock state obeys the stated recursion (own explicit flag
first, else the parent, with an unset root unlocked); locking a node
immediately makes the effective state true for every descendant that
inherits from it through a chain of unset flags, while any descendant
carrying its own explicit flag keeps its value. -/
theorem c3_amended (s : St) (i : Nat) :
    (∀ j, ¬ j = i → (lock s i).find j = s.find j ∧ (unlock s i).find j = s.find j) ∧
    (∀ nd, s.find i = some nd →
      (lock s i).find i = some ⟨nd.entries, nd.parent, nd.root, some true, nd.key⟩ ∧
      (unlock s i).find i = some ⟨nd.entries, nd.parent, nd.root, some false, nd.key⟩) ∧
    (∀ f nd, s.find i = some nd →
      (nd.parent = none → lockedE (f + 1) s i = some (nd.locked.getD false)) ∧
      (∀ p b, nd.parent = some p → nd.locked = some b → lockedE (f + 1) s i = some b) ∧
      (∀ p, nd.parent = some p → nd.locked = none → lockedE (f + 1) s i = lockedE f s p)) ∧
    (∀ d, InheritsFrom s i d → (∃ nd, s.find i = some nd) →
      ∃ f, lockedE f (lock s i) d = some true) ∧
    (∀ d nd b f, ¬ d = i → s.find d = some nd → nd.locked = some b →
      lockedE (f + 1) (lock s i) d = some b ∧ lockedE (f + 1) s d = some b) := by
  have hlockfind : ∀ j, (lock s i).find j =
      if j = i then (s.find i).map (fun nd => { nd with locked := some true })
      else s.find j := by
    intro j
    unfold lock
    exact find_upd s i _ j
  refine ⟨?_, ?_, ?_, ?_, ?_⟩
  · intro j hj
    constructor
    · rw [hlockfind j, if_neg hj]
    · unfold unlock
      rw [find_upd, if_neg hj]
  · intro nd hnd
    constructor
    · rw [hlockfind i, if_pos rfl, hnd]
      rfl
    · unfold unlock
      rw [find_upd, if_pos rfl, hnd]
      rfl
  · intro f nd hnd
    refine ⟨?_, ?_, ?_⟩
    · intro hp
      rw [lockedE_succ, hnd]
      simp [hp]
    · intro p b hp hb
      rw [lockedE_succ, hnd]
      simp [hp, hb]
    · intro p hp hb
      rw [lockedE_succ, hnd]
      simp [hp, hb]
  · intro d hinh hex
    induction hinh with
    | refl =>
      obtain ⟨nd, hnd⟩ := hex
      refine ⟨1, ?_⟩
      rw [lockedE_succ, hlockfind i, if_pos rfl, hnd]
      cases hp : nd.parent <;> simp [hp]
    | @step d2 p2 nd2 hfd hlocked hparent hprev ih =>
      obtain ⟨f, hf⟩ := ih
      refine ⟨f + 1, ?_⟩
      rw [lockedE_succ, hlockfind d2]
      by_cases hdi : d2 = i
      · rw [if_pos hdi]
        rw [hdi] at hfd
        rw [hfd]
        cases hp : nd2.parent <;> simp [hp]
      · rw [if_neg hdi, hfd]
        simp only [hparent, hlocked]
        exact hf
  · intro d nd b f hdi hfd hb
    constructor
    · rw [lockedE_succ, hlockfind d, if_neg hdi, hfd]
      cases hp : nd.parent <;> simp [hp, hb]
    · rw [lockedE_succ, hfd]
      cases hp : nd.parent <;> simp [hp, hb]

/-- C3 amended witness: in the C1 heap (flags all unset along the chain
0 - 1 - 2), locking the root makes the grandchild 2 effectively locked;
in the `c3St` chain the explicitly unlocked child 1 keeps its false
flag after the root is locked. -/
theorem c3_amended_witness :
    (∃ f, lockedE f (lock c1Result 0) 2 = some true) ∧
    lockedE 3 (lock c3St 0) 1 = some false :=
  ⟨(c3_amended c1Result 0).2.2.2.1 2
     (@InheritsFrom.step c1Result 0 2 1 ⟨[(keyC, Val.leaf 1)], some 1, some 0, none, some keyB⟩
        (by decide) (by decide) (by decide)
        (@InheritsFrom.step c1Result 0 1 0
          ⟨[(keyB, Val.node 2)], some 0, some 0, none, some keyA⟩
          (by decide) (by decide) (by decide) InheritsFrom.refl))
     ⟨⟨[(keyA, Val.node 1)], none, none, none, none⟩, by decide⟩,
   ((c3_amended c3St 0).2.2.2.2 1 ⟨[(keyB, Val.node 2)], some 0, some 0, some false, some keyA⟩
      false 2 (by decide) (by decide) (by decide)).1⟩

theorem contains_seq_eval (f : Nat) (i : Nat) (l : List PyKey) (s : St)
    (hne : ¬ l = []) :
    contains (f + 1) i (PyKey.lst l) s = containsWalk f (Val.node i) l s := by
  rw [contains_succ]
  cases l with
  | nil => exact absurd rfl hne
  | cons a as => rfl

theorem walk_resolve_true (l : List PyKey) : ∀ (f : Nat) (cur : Val) (s : St) (v : Val),
    l.length < f → (∀ e, e ∈ l → issequence e = false ∧ isHashable e = true) →
    resolveW s cur l = some v → containsWalk f cur l s = some (Except.ok true, s) := by
  induction l with
  | nil =>
    intro f cur s v hf _ _
    cases f with
    | zero => exact absurd hf (by omega)
    | succ g => rw [containsWalk_succ_nil]; rfl
  | cons x rest ih =>
    intro f cur s v hf helems hres
    obtain ⟨hxs, hxh⟩ := helems x (by simp)
    cases f with
    | zero => exact absurd hf (by omega)
    | succ g =>
      cases cur with
      | leaf n => simp [resolveW] at hres
      | node j =>
        rw [containsWalk_succ_cons, hxh]
        simp only [if_true]
        cases hfj : s.find j with
        | none => simp [resolveW, hfj] at hres
        | some nd =>
          cases hlk : lookupE nd.entries x with
          | none => simp [resolveW, hfj, hlk] at hres
          | some v2 =>
            simp only [resolveW, hfj, hlk] at hres
            cases g with
            | zero => exact absurd hf (by simp)
            | succ g2 =>
              rw [mbind_ok _ _ _ _ _ (contains_scalar_eval g2 j x s nd hxh hfj)]
              rw [hlk]
              simp only [Option.isSome_some, if_true]
              rw [mbind_ok _ _ _ _ _
                (getitem_scalar_present g2 j x s nd v2 hxs hxh hfj hlk)]
              exact ih (g2 + 1) v2 s v (by simp at hf; omega) 
                (fun e he => helems e (by simp [he])) hres

theorem walk_false_at_absent (l1 : List PyKey) : ∀ (f : Nat) (cur : Val) (s : St)
    (x : PyKey) (l2 : List PyKey) (m : Nat) (nd : Node),
    l1.length + 1 < f → (∀ e, e ∈ l1 → issequence e = false ∧ isHashable e = true) →
    isHashable x = true → resolveW s cur l1 = some (Val.node m) →
    s.find m = some nd → lookupE nd.entries x = none →
    containsWalk f cur (l1 ++ x :: l2) s = some (Except.ok false, s) := by
  induction l1 with
  | nil =>
    intro f cur s x l2 m nd hf _ hxh hres hfm hlk
    have hcur : cur = Val.node m := by simpa [resolveW] using hres
    subst hcur
    cases f with
    | zero => exact absurd hf (by omega)
    | succ g =>
      rw [List.nil_append, containsWalk_succ_cons, hxh]
      simp only [if_true]
      cases g with
      | zero => exact absurd hf (by omega)
      | succ g2 =>
        rw [mbind_ok _ _ _ _ _ (contains_scalar_eval g2 m x s nd hxh hfm)]
        rw [hlk]
        rfl
  | cons y rest ih =>
    intro f cur s x l2 m nd hf helems hxh hres hfm hlk
    obtain ⟨hys, hyh⟩ := helems y (by simp)
    cases f with
    | zero => exact absurd hf (by omega)
    | succ g =>
      cases cur with
      | leaf n => simp [resolveW] at hres
      | node j =>
        rw [List.cons_append, containsWalk_succ_cons, hyh]
        simp only [if_true]
        cases hfj : s.find j with
        | none => simp [resolveW, hfj] at hres
        | some nd1 =>
          cases hlk1 : lookupE nd1.entries y with
          | none => simp [resolveW, hfj, hlk1] at hres
          | some v2 =>
            simp only [resolveW, hfj, hlk1] at hres
            cases g with
            | zero => exact absurd hf (by omega)
            | succ g2 =>
              rw [mbind_ok _ _ _ _ _ (contains_scalar_eval g2 j y s nd1 hyh hfj)]
              rw [hlk1]
              simp only [Option.isSome_some, if_true]
              rw [mbind_ok _ _ _ _ _
                (getitem_scalar_present g2 j y s nd1 v2 hys hyh hfj hlk1)]
              exact ih (g2 + 1) v2 s x l2 m nd (by simp at hf; omega)
                (fun e he => helems e (by simp [he])) hxh hres hfm hlk

theorem walk_type_error (l1 : List PyKey) : ∀ (f : Nat) (cur : Val) (s : St)
    (x : PyKey) (l2 : List PyKey) (v : Val),
    l1.length + 1 < f → (∀ e, e ∈ l1 → issequence e = false ∧ isHashable e = true) →
    isHashable x = false → resolveW s cur l1 = some v →
    containsWalk f cur (l1 ++ x :: l2) s = some (Except.error Err.typeErr, s) := by
  induction l1 with
  | nil =>
    intro f cur s x l2 v hf _ hxh _
    cases f with
    | zero => exact absurd hf (by omega)
    | succ g =>
      rw [List.nil_append, containsWalk_succ_cons, hxh]
      rfl
  | cons y rest ih =>
    intro f cur s x l2 v hf helems hxh hres
    obtain ⟨hys, hyh⟩ := helems y (by simp)
    cases f with
    | zero => exact absurd hf (by omega)
    | succ g =>
      cases cur with
      | leaf n => simp [resolveW] at hres
      | node j =>
        rw [List.cons_append, containsWalk_succ_cons, hyh]
        simp only [if_true]
        cases hfj : s.find j with
        | none => simp [resolveW, hfj] at hres
        | some nd1 =>
          cases hlk1 : lookupE nd1.entries y with
          | none => simp [resolveW, hfj, hlk1] at hres
          | some v2 =>
            simp only [resolveW, hfj, hlk1] at hres
            cases g with
            | zero => exact absurd hf (by omega)
            | succ g2 =>
              rw [mbind_ok _ _ _ _ _ (contains_scalar_eval g2 j y s nd1 hyh hfj)]
              rw [hlk1]
              simp only [Option.isSome_some, if_true]
              rw [mbind_ok _ _ _ _ _
                (getitem_scalar_present g2 j y s nd1 v2 hys hyh hfj hlk1)]
              exact ih (g2 + 1) v2 s x l2 v (by simp at hf; omega)
                (fun e he => helems e (by simp [he])) hxh hres

/-- C6 amended: `contains` on a single hashable key (tuples included)
is a direct shallow membership test; on a key that is neither hashable
nor a sequence it raises `TypeError`; and for a non-empty non-hashable
sequence of scalar (non-sequence) hashable sub-keys it walks the path
without modifying the tree, answering false at the first absent element
(short-circuit) and true when every element resolves.  When the walk
reaches a non-hashable element it raises `TypeError`.  The restriction
to scalar sub-keys is necessary: tuple sub-keys make the walk descend
through `__getitem__`, which can autovivify (see the counterexample). -/
theorem c6_amended :
    (∀ f i k s nd, isHashable k = true → St.find s i = some nd →
      contains (f + 1) i k s = some (Except.ok (lookupE nd.entries k).isSome, s)) ∧
    (∀ f i k s, isHashable k = false → issequence k = false →
      contains (f + 1) i k s = some (Except.error Err.typeErr, s)) ∧
    (∀ f i s l v, ¬ l = [] → l.length < f →
      (∀ e, e ∈ l → issequence e = false ∧ isHashable e = true) →
      resolveW s (Val.node i) l = some v →
      contains (f + 1) i (PyKey.lst l) s = some (Except.ok true, s)) ∧
    (∀ f i s l1 x l2 m nd, l1.length + 1 < f →
      (∀ e, e ∈ l1 → issequence e = false ∧ isHashable e = true) →
      isHashable x = true → resolveW s (Val.node i) l1 = some (Val.node m) →
      St.find s m = some nd → lookupE nd.entries x = none →
      contains (f + 1) i (PyKey.lst (l1 ++ x :: l2)) s = some (Except.ok false, s)) ∧
    (∀ f i s l1 x l2 v, l1.length + 1 < f →
      (∀ e, e ∈ l1 → issequence e = false ∧ isHashable e = true) →
      isHashable x = false → resolveW s (Val.node i) l1 = some v →
      contains (f + 1) i (PyKey.lst (l1 ++ x :: l2)) s =
        some (Except.error Err.typeErr, s)) := by
  refine ⟨?_, ?_, ?_, ?_, ?_⟩
  · intro f i k s nd hh hf
    exact contains_scalar_eval f i k s nd hh hf
  · intro f i k s hh hs
    rw [contains_succ, hh, hs]
    rfl
  · intro f i s l v hne hf helems hres
    rw [contains_seq_eval f i l s hne]
    exact walk_resolve_true l f (Val.node i) s v hf helems hres
  · intro f i s l1 x l2 m nd hf helems hxh hres hfm hlk
    rw [contains_seq_eval f i (l1 ++ x :: l2) s (by simp)]
    exact walk_false_at_absent l1 f (Val.node i) s x l2 m nd hf helems hxh hres hfm hlk
  · intro f i s l1 x l2 v hf helems hxh hres
    rw [contains_seq_eval f i (l1 ++ x :: l2) s (by simp)]
    exact walk_type_error l1 f (Val.node i) s x l2 v hf helems hxh hres

/-- C6 amended witness: on the C1 heap, membership of the plain key
"a" is shallow and true; the path ["a","b"] resolves and answers true
without mutation; the path ["a","b","x"] answers false at the absent
last element without mutation. -/
theorem c6_amended_witness :
    contains 1 0 keyA c1Result = some (Except.ok true, c1Result) ∧
    contains 4 0 (PyKey.lst [keyA, keyB]) c1Result = some (Except.ok true, c1Result) ∧
    contains 5 0 (PyKey.lst ([keyA, keyB] ++ keyX :: [])) c1Result =
      some (Except.ok false, c1Result) :=
  ⟨c6_amended.1 0 0 keyA c1Result ⟨[(keyA, Val.node 1)], none, none, none, none⟩
     (by decide) (by decide),
   c6_amended.2.2.1 3 0 c1Result [keyA, keyB] (Val.node 2) (by decide) (by decide)
     (by decide) (by decide),
   c6_amended.2.2.2.1 4 0 c1Result [keyA, keyB] keyX [] 2
     ⟨[(keyC, Val.leaf 1)], some 1, some 0, none, some keyB⟩
     (by decide) (by decide) (by decide) (by decide) (by decide) (by decide)⟩

theorem setitem_plain_locked (f : Nat) (i : Nat) (key : PyKey) (v? : Option Val)
    (s : St) (hl : lockedE (f + 1) s i = some true) :
    setitem (f + 2) i key v? s = some (Except.error Err.lockedErr, s) := by
  show setitem (f + 1 + 1) i key v? s = _
  rw [setitem_succ, mbind_ok _ _ _ _ _ (lockedM_eval (f + 1) i s true hl)]
  rfl

theorem setitem_plain_inv (f : Nat) (i : Nat) (key : PyKey) (v : Val) (s s2 : St)
    (hsk : issequence key = false) (hh : isHashable key = true)
    (h : setitem (f + 2) i key (some v) s = some (Except.ok (), s2)) :
    ∃ nd, s.find i = some nd ∧ lockedE (f + 1) s i = some false ∧
      ((∃ n, v = Val.leaf n ∧
         s2 = setEntries (occLeave s nd key) i (insertE nd.entries key v)) ∨
       (∃ m r, v = Val.node m ∧
         rootE (f + 1) (setParent (occLeave s nd key) m (some i)) i = some r ∧
         s2 = setEntries (setLink (occLeave s nd key) m (some i) (some r) (some key)) i
           (insertE nd.entries key v))) := by
  cases hf : s.find i with
  | none =>
    have hlock : lockedE (f + 1) s i = none := by rw [lockedE_succ, hf]
    rw [show (f + 2 : Nat) = f + 1 + 1 from rfl, setitem_succ,
      mbind_none _ _ _ (lockedM_none (f + 1) i s hlock)] at h
    exact absurd h (by simp)
  | some nd =>
    cases hl : lockedE (f + 1) s i with
    | none =>
      rw [show (f + 2 : Nat) = f + 1 + 1 from rfl, setitem_succ,
        mbind_none _ _ _ (lockedM_none (f + 1) i s hl)] at h
      exact absurd h (by simp)
    | some b =>
      cases b with
      | true =>
        rw [setitem_plain_locked f i key (some v) s hl] at h
        exact absurd h (by simp)
      | false =>
        refine ⟨nd, rfl, rfl, ?_⟩
        cases v with
        | leaf n =>
          left
          refine ⟨n, rfl, ?_⟩
          rw [setitem_plain_leaf f i key n s nd hsk hh hf hl] at h
          have h2 := (Option.some.injEq _ _ ▸ h : (Except.ok (),
            setEntries (occLeave s nd key) i (insertE nd.entries key (Val.leaf n))) =
              (Except.ok (), s2))
          exact (Prod.mk.injEq _ _ _ _ ▸ h2).2.symm
        | node m =>
          right
          cases hr : rootE (f + 1) (setParent (occLeave s nd key) m (some i)) i with
          | none =>
            rw [setitem_plain_node_nofuel f i key m s nd hsk hh hf hl hr] at h
            exact absurd h (by simp)
          | some r =>
            refine ⟨m, r, rfl, hr, ?_⟩
            rw [setitem_plain_node f i key m s nd r hsk hh hf hl hr] at h
            have h2 := (Option.some.injEq _ _ ▸ h : (Except.ok (),
              setEntries (setLink (occLeave s nd key) m (some i) (some r) (some key)) i
                (insertE nd.entries key (Val.node m))) = (Except.ok (), s2))
            exact (Prod.mk.injEq _ _ _ _ ▸ h2).2.symm

theorem entriesOf_upd_link (s : St) (i : Nat) (g : Node → Node)
    (hg : ∀ nd, (g nd).entries = nd.entries) (p : Nat) :
    ((s.upd i g).find p).map Node.entries = (s.find p).map Node.entries := by
  rw [find_upd]
  by_cases hp : p = i
  · subst hp
    cases hfp : s.find p with
    | none => simp
    | some nd => simp [hg nd]
  · rw [if_neg hp]

theorem entriesOf_leaveParent (s : St) (j p : Nat) :
    ((leaveParent s j).find p).map Node.entries = (s.find p).map Node.entries := by
  unfold leaveParent setLink
  exact entriesOf_upd_link s j
    (fun nd => { nd with parent := none, root := none, key := none }) (fun nd => rfl) p

theorem entriesOf_setLink (s : St) (m : Nat) (pa r : Option Nat) (k : Option PyKey)
    (p : Nat) :
    ((setLink s m pa r k).find p).map Node.entries = (s.find p).map Node.entries := by
  unfold setLink
  exact entriesOf_upd_link s m
    (fun nd => { nd with parent := pa, root := r, key := k }) (fun nd => rfl) p

theorem entriesOf_setEntries_ne (s : St) (n : Nat) (es : List (PyKey × Val))
    (p : Nat) (hp : ¬ p = n) :
    ((setEntries s n es).find p).map Node.entries = (s.find p).map Node.entries := by
  rw [find_setEntries, if_neg hp]

theorem entriesOf_occLeave (s : St) (nd : Node) (key : PyKey) (p : Nat) :
    ((occLeave s nd key).find p).map Node.entries = (s.find p).map Node.entries := by
  unfold occLeave
  cases lookupE nd.entries key with
  | none => rfl
  | some v =>
    cases v with
    | leaf n => rfl
    | node j => exact entriesOf_leaveParent s j p

/-- C4 amended: overwriting the slot `k` of an unlocked node with a
second `NestedMap` detaches the first one.  The claim must exclude the
degenerate aliasing instances (see the counterexample): here X and Y
are distinct allocated objects, X is not the target node itself, and X
is not already reachable from the target node nor from inside Y.
After `set(k, X)` followed by `set(k, Y)` both complete, X ends with
cleared parent, root cache and own key, and is unreachable from the
target, while Y is attached under the target with own key `k` and its
root cache set to the value `parent.root()` computes at attach time —
a walk over the heap that already holds Y's fresh parent link, exactly
as `__join_parent__` assigns `self.parent` before calling
`parent.root()`; an attachment that would make that walk cyclic never
completes, so it is excluded by the hypothesis that the second store
returned. -/
theorem c4_amended (f : Nat) (s s1 s2 : St) (n X Y : Nat) (k : PyKey)
    (ndX0 ndY0 : Node)
    (hsk : issequence k = false) (hh : isHashable k = true)
    (hXY : ¬ X = Y) (hXn : ¬ X = n)
    (hfX : s.find X = some ndX0) (hfY : s.find Y = some ndY0)
    (hNR1 : ¬ Reach s n X) (hNR2 : ¬ Reach s Y X)
    (h1 : setitem (f + 2) n k (some (Val.node X)) s = some (Except.ok (), s1))
    (h2 : setitem (f + 2) n k (some (Val.node Y)) s1 = some (Except.ok (), s2)) :
    s2.find X = some ⟨ndX0.entries, none, none, ndX0.locked, none⟩ ∧
    ¬ Reach s2 n X ∧
    (∃ ndY r, s2.find Y = some ndY ∧ ndY.parent = some n ∧ ndY.key = some k ∧
      ndY.root = some r ∧
      rootE (f + 1) (setParent (leaveParent s1 X) Y (some n)) n = some r) := by
  have hnX : ¬ n = X := fun he => hXn he.symm
  have hYX : ¬ Y = X := fun he => hXY he.symm
  obtain ⟨nd0, hfN, hl0, hcase1⟩ := setitem_plain_inv f n k (Val.node X) s s1 hsk hh h1
  rcases hcase1 with ⟨nn, hne, _⟩ | ⟨m, r1, hmx, hr1, hs1⟩
  · exact absurd hne (by simp)
  have hmX : X = m := by injection hmx
  subst hmX
  obtain ⟨ndσ, hσn, hentσ⟩ := find_entries_occLeave s nd0 k n nd0 hfN
  have hs1n : s1.find n =
      some { ndσ with entries := insertE nd0.entries k (Val.node X) } := by
    rw [hs1, find_setEntries, if_pos rfl, find_setLink, if_neg hnX, hσn]
    rfl
  have hXnotZ : ∀ Z, lookupE nd0.entries k = some (Val.node Z) → ¬ X = Z := by
    intro Z hocc he
    subst he
    exact hNR1 (Reach.step Reach.refl hfN hocc)
  have hσX : (occLeave s nd0 k).find X = some ndX0 := by
    unfold occLeave
    cases hocc : lookupE nd0.entries k with
    | none => exact hfX
    | some v =>
      cases v with
      | leaf nn => exact hfX
      | node Z =>
        rw [find_leaveParent, if_neg (hXnotZ Z hocc)]
        exact hfX
  have hs1X : s1.find X =
      some ⟨ndX0.entries, some n, some r1, ndX0.locked, some k⟩ := by
    rw [hs1, find_setEntries, if_neg hXn, find_setLink, if_pos rfl, hσX]
    rfl
  obtain ⟨nd1, hfN1, hl1, hcase2⟩ := setitem_plain_inv f n k (Val.node Y) s1 s2 hsk hh h2
  have hnd1 : nd1 = { ndσ with entries := insertE nd0.entries k (Val.node X) } := by
    rw [hs1n] at hfN1
    exact (Option.some.injEq _ _ ▸ hfN1).symm
  subst hnd1
  rcases hcase2 with ⟨nn, hne, _⟩ | ⟨m2, r2, hmy, hr2, hs2⟩
  · exact absurd hne (by simp)
  have hmY : Y = m2 := by injection hmy
  subst hmY
  have hlk1 : lookupE (insertE nd0.entries k (Val.node X)) k = some (Val.node X) := by
    rw [lookupE_insertE, if_pos rfl]
  have hoccL : occLeave s1 { ndσ with entries := insertE nd0.entries k (Val.node X) } k =
      leaveParent s1 X := by
    unfold occLeave
    simp only [hlk1]
  rw [hoccL] at hr2 hs2
  have hs1Y : ∃ ndY1, s1.find Y = some ndY1 := by
    by_cases hYn : Y = n
    · subst hYn
      exact ⟨_, hs1n⟩
    · obtain ⟨ndYσ, hσY, _⟩ := find_entries_occLeave s nd0 k Y ndY0 hfY
      refine ⟨ndYσ, ?_⟩
      rw [hs1, find_setEntries, if_neg hYn, find_setLink, if_neg hYX]
      exact hσY
  obtain ⟨ndY1, hs1Yv⟩ := hs1Y
  refine ⟨?_, ?_, ?_⟩
  · rw [hs2, find_setEntries, if_neg hXn, find_setLink, if_neg hXY,
      find_leaveParent, if_pos rfl, hs1X]
    rfl
  · have hEnt : ∀ p, ¬ p = n →
        (s2.find p).map Node.entries = (s.find p).map Node.entries := by
      intro p hp
      rw [hs2, entriesOf_setEntries_ne _ _ _ _ hp, entriesOf_setLink,
        entriesOf_leaveParent, hs1, entriesOf_setEntries_ne _ _ _ _ hp,
        entriesOf_setLink, entriesOf_occLeave]
    have hEntN : (s2.find n).map Node.entries =
        some (insertE (insertE nd0.entries k (Val.node X)) k (Val.node Y)) := by
      rw [hs2, find_setEntries, if_pos rfl, find_setLink]
      by_cases hny : n = Y
      · rw [if_pos hny, ← hny, find_leaveParent, if_neg hnX, hs1n]
        rfl
      · rw [if_neg hny, find_leaveParent, if_neg hnX, hs1n]
        rfl
    have htransfer : ∀ j, Reach s2 n j → Reach s n j ∨ Reach s Y j := by
      intro j hj
      induction hj with
      | refl => exact Or.inl Reach.refl
      | @step j2 m2 ndj k2 hprev hfind hlk ih =>
        by_cases hj2 : j2 = n
        · subst hj2
          have hent : ndj.entries =
              insertE (insertE nd0.entries k (Val.node X)) k (Val.node Y) := by
            rw [hfind] at hEntN
            simpa using hEntN
          rw [hent, lookupE_insertE] at hlk
          by_cases hk2 : k2 = k
          · rw [if_pos hk2] at hlk
            have : Y = m2 := by
              have h3 : Val.node Y = Val.node m2 := by simpa using hlk
              injection h3
            subst this
            exact Or.inr Reach.refl
          · rw [if_neg hk2, lookupE_insertE, if_neg hk2] at hlk
            exact Or.inl (Reach.step Reach.refl hfN hlk)
        · have hent := hEnt j2 hj2
          rw [hfind] at hent
          cases hfs : s.find j2 with
          | none => rw [hfs] at hent; exact absurd hent (by simp)
          | some ndj0 =>
            rw [hfs] at hent
            have hent2 : ndj.entries = ndj0.entries := by simpa using hent
            rw [hent2] at hlk
            rcases ih with h | h
            · exact Or.inl (Reach.step h hfs hlk)
            · exact Or.inr (Reach.step h hfs hlk)
    intro hr
    rcases htransfer X hr with h | h
    · exact hNR1 h
    · exact hNR2 h
  · by_cases hYn : Y = n
    · subst hYn
      have hfind2 : s2.find Y =
          some ⟨insertE (insertE nd0.entries k (Val.node X)) k (Val.node Y),
            some Y, some r2, ndY1.locked, some k⟩ := by
        rw [hs2, find_setEntries, if_pos rfl, find_setLink, if_pos rfl,
          find_leaveParent, if_neg hYX, hs1Yv]
        rfl
      exact ⟨_, r2, hfind2, rfl, rfl, rfl, hr2⟩
    · have hfind2 : s2.find Y =
          some ⟨ndY1.entries, some n, some r2, ndY1.locked, some k⟩ := by
        rw [hs2, find_setEntries, if_neg hYn, find_setLink, if_pos rfl,
          find_leaveParent, if_neg hYX, hs1Yv]
        rfl
      exact ⟨_, r2, hfind2, rfl, rfl, rfl, hr2⟩

theorem c4WSt_entries_empty (p : Nat) (nd : Node) (h : c4WSt.find p = some nd) :
    nd.entries = [] := by
  by_cases h0 : p = 0
  · subst h0
    rw [show c4WSt.find 0 = some Node.empty from by decide] at h
    have h2 : Node.empty = nd := by simpa using h
    rw [← h2]
    rfl
  by_cases h1 : p = 1
  · subst h1
    rw [show c4WSt.find 1 = some Node.empty from by decide] at h
    have h2 : Node.empty = nd := by simpa using h
    rw [← h2]
    rfl
  by_cases h2 : p = 2
  · subst h2
    rw [show c4WSt.find 2 = some Node.empty from by decide] at h
    have h3 : Node.empty = nd := by simpa using h
    rw [← h3]
    rfl
  · have hno : c4WSt.find p = none := by
      show lookupN c4WSt.nodes p = none
      show (if 0 = p then some Node.empty else
        if 1 = p then some Node.empty else
          if 2 = p then some Node.empty else none) = none
      rw [if_neg (fun hh => h0 hh.symm), if_neg (fun hh => h1 hh.symm),
        if_neg (fun hh => h2 hh.symm)]
    rw [hno] at h
    exact absurd h (by simp)

theorem c4WSt_reach_self (st : Nat) : ∀ j, Reach c4WSt st j → j = st := by
  intro j h
  induction h with
  | refl => rfl
  | @step j2 m2 ndj k2 hprev hfind hlk ih =>
    have he := c4WSt_entries_empty j2 ndj hfind
    rw [he] at hlk
    exact absurd hlk (by simp [lookupE])

/-- C4 amended witness: with a fresh root 0 and detached objects 1 and
2, storing 1 under "a" and then 2 under "a" leaves 1 fully detached and
unreachable from the root, while 2 hangs under the root with key "a"
and root cache 0. -/
theorem c4_amended_witness :
    c4WFin.find 1 = some ⟨[], none, none, none, none⟩ ∧
    ¬ Reach c4WFin 0 1 ∧
    (∃ ndY r, c4WFin.find 2 = some ndY ∧ ndY.parent = some 0 ∧ ndY.key = some keyA ∧
      ndY.root = some r ∧
      rootE 2 (setParent (leaveParent c4WMid 1) 2 (some 0)) 0 = some r) :=
  c4_amended 1 c4WSt c4WMid c4WFin 0 1 2 keyA Node.empty Node.empty
    (by decide) (by decide) (by decide) (by decide) (by decide) (by decide)
    (fun h => absurd (c4WSt_reach_self 0 1 h) (by decide))
    (fun h => absurd (c4WSt_reach_self 2 1 h) (by decide))
    (by decide) (by decide)

theorem lookupE_append (es1 es2 : List (PyKey × Val)) (k : PyKey) :
    lookupE (es1 ++ es2) k =
      match lookupE es1 k with
      | some v => some v
      | none => lookupE es2 k := by
  induction es1 with
  | nil => simp [lookupE]
  | cons a rest ih =>
    obtain ⟨a1, a2⟩ := a
    by_cases h : a1 = k <;> simp [lookupE, h, ih]

theorem insertE_append_absent (es : List (PyKey × Val)) (k : PyKey) (v : Val)
    (h : lookupE es k = none) : insertE es k v = es ++ [(k, v)] := by
  induction es with
  | nil => rfl
  | cons a rest ih =>
    obtain ⟨a1, a2⟩ := a
    by_cases h1 : a1 = k
    · rw [show lookupE ((a1, a2) :: rest) k = if a1 = k then some a2 else lookupE rest k
        from rfl, if_pos h1] at h
      exact absurd h (by simp)
    · rw [show lookupE ((a1, a2) :: rest) k = if a1 = k then some a2 else lookupE rest k
        from rfl, if_neg h1] at h
      show (if a1 = k then (a1, v) :: rest else (a1, a2) :: insertE rest k v) = _
      rw [if_neg h1, ih h]
      rfl

theorem IdsOk_upd (s : St) (i : Nat) (g : Node → Node) (h : IdsOk s) :
    IdsOk (s.upd i g) := by
  intro p hp
  unfold St.upd at hp
  simp only [List.mem_map] at hp
  obtain ⟨q, hq, hpq⟩ := hp
  have h2 := h q hq
  by_cases hqi : q.1 = i
  · rw [if_pos hqi] at hpq
    rw [← hpq]
    exact h2
  · rw [if_neg hqi] at hpq
    rw [← hpq]
    exact h2

theorem IdsOk_alloc (s : St) (h : IdsOk s) : IdsOk (alloc s).2 := by
  intro p hp
  unfold alloc at hp
  simp only [List.mem_append, List.mem_singleton] at hp
  rcases hp with hp | hp
  · exact Nat.lt_trans (h p hp) (Nat.lt_succ_self _)
  · rw [hp]
    exact Nat.lt_succ_self _

theorem lockedE_parentless (f : Nat) (s : St) (j : Nat) (nd : Node)
    (hf : s.find j = some nd) (hp : nd.parent = none) (hl : nd.locked = none) :
    lockedE (f + 1) s j = some false := by
  rw [lockedE_succ, hf]
  simp [hp, hl]

theorem rootE_parentless (f : Nat) (s : St) (j : Nat) (nd : Node)
    (hf : s.find j = some nd) (hp : nd.parent = none) :
    rootE (f + 1) s j = some j := by
  rw [rootE_succ, hf]
  simp [hp]

theorem extractN_succ (g : Nat) (s : St) (c : Nat) :
    extractN (g + 1) s c =
      (match s.find c with
       | none => none
       | some nd =>
         match extractEs g s nd.entries with
         | none => none
         | some es => some (PTree.mk es)) := rfl

theorem extractEs_succ_nil (g : Nat) (s : St) :
    extractEs (g + 1) s [] = some [] := rfl

theorem extractEs_succ_leaf (g : Nat) (s : St) (k : PyKey) (n : Int)
    (rest : List (PyKey × Val)) :
    extractEs (g + 1) s ((k, Val.leaf n) :: rest) =
      (match extractEs g s rest with
       | none => none
       | some es => some ((k, PTree.leaf n) :: es)) := rfl

theorem extractEs_succ_node (g : Nat) (s : St) (k : PyKey) (j : Nat)
    (rest : List (PyKey × Val)) :
    extractEs (g + 1) s ((k, Val.node j) :: rest) =
      (match extractN g s j with
       | none => none
       | some t =>
         match extractEs g s rest with
         | none => none
         | some es => some ((k, t) :: es)) := rfl

theorem extract_mono (g : Nat) :
    (∀ (s : St) (c : Nat) (t : PTree), extractN g s c = some t →
      extractN (g + 1) s c = some t) ∧
    (∀ (s : St) (l : List (PyKey × Val)) (es : List (PyKey × PTree)),
      extractEs g s l = some es → extractEs (g + 1) s l = some es) := by
  induction g with
  | zero =>
    constructor
    · intro s c t h
      exact absurd h (by simp [extractN])
    · intro s l es h
      cases l with
      | nil => simpa [extractEs] using h
      | cons a rest => exact absurd h (by simp [extractEs])
  | succ g ih =>
    constructor
    · intro s c t h
      rw [extractN_succ] at h
      rw [extractN_succ]
      cases hf : s.find c with
      | none => rw [hf] at h; simp at h
      | some nd =>
        rw [hf] at h
        have h2 : (match extractEs g s nd.entries with
          | none => none
          | some es => some (PTree.mk es)) = some t := h
        show (match extractEs (g + 1) s nd.entries with
          | none => none
          | some es => some (PTree.mk es)) = some t
        cases hes : extractEs g s nd.entries with
        | none => rw [hes] at h2; simp at h2
        | some es =>
          rw [hes] at h2
          rw [ih.2 s nd.entries es hes]
          exact h2
    · intro s l es h
      cases l with
      | nil => simpa [extractEs_succ_nil] using h
      | cons a rest =>
        obtain ⟨k, v⟩ := a
        cases v with
        | leaf n =>
          rw [extractEs_succ_leaf] at h
          rw [extractEs_succ_leaf]
          cases hes : extractEs g s rest with
          | none => rw [hes] at h; simp at h
          | some es2 =>
            rw [hes] at h
            rw [ih.2 s rest es2 hes]
            exact h
        | node j =>
          rw [extractEs_succ_node] at h
          rw [extractEs_succ_node]
          cases ht : extractN g s j with
          | none => rw [ht] at h; simp at h
          | some t2 =>
            rw [ht] at h
            rw [ih.1 s j t2 ht]
            have h2 : (match extractEs g s rest with
              | none => none
              | some es2 => some ((k, t2) :: es2)) = some es := h
            show (match extractEs (g + 1) s rest with
              | none => none
              | some es2 => some ((k, t2) :: es2)) = some es
            cases hes : extractEs g s rest with
            | none => rw [hes] at h2; simp at h2
            | some es2 =>
              rw [hes] at h2
              rw [ih.2 s rest es2 hes]
              exact h2

theorem extractN_le (g g2 : Nat) (s : St) (c : Nat) (t : PTree) (hle : g ≤ g2)
    (h : extractN g s c = some t) : extractN g2 s c = some t := by
  induction g2 with
  | zero =>
    have : g = 0 := Nat.le_zero.mp hle
    rw [← this]
    exact h
  | succ g3 ih =>
    by_cases he : g = g3 + 1
    · rw [← he]
      exact h
    · have : g ≤ g3 := by omega
      exact (extract_mono g3).1 s c t (ih this)

theorem extractEs_le (g g2 : Nat) (s : St) (l : List (PyKey × Val))
    (es : List (PyKey × PTree)) (hle : g ≤ g2)
    (h : extractEs g s l = some es) : extractEs g2 s l = some es := by
  induction g2 with
  | zero =>
    have : g = 0 := Nat.le_zero.mp hle
    rw [← this]
    exact h
  | succ g3 ih =>
    by_cases he : g = g3 + 1
    · rw [← he]
      exact h
    · have : g ≤ g3 := by omega
      exact (extract_mono g3).2 s l es (ih this)

theorem extract_stable (g : Nat) : ∀ (s1 s2 : St) (lo hi : Nat),
    (∀ p, lo ≤ p → p < hi →
      (s2.find p).map Node.entries = (s1.find p).map Node.entries) →
    (∀ p nd k2 m, lo ≤ p → p < hi → s1.find p = some nd →
      (k2, Val.node m) ∈ nd.entries → lo ≤ m ∧ m < hi) →
    ((∀ c t, lo ≤ c → c < hi → extractN g s1 c = some t → extractN g s2 c = some t) ∧
     (∀ l es, (∀ k2 m, (k2, Val.node m) ∈ l → lo ≤ m ∧ m < hi) →
       extractEs g s1 l = some es → extractEs g s2 l = some es)) := by
  induction g with
  | zero =>
    intro s1 s2 lo hi hagree hclosed
    constructor
    · intro c t _ _ h
      exact absurd h (by simp [extractN])
    · intro l es _ h
      cases l with
      | nil => simpa [extractEs] using h
      | cons a rest => exact absurd h (by simp [extractEs])
  | succ g ih =>
    intro s1 s2 lo hi hagree hclosed
    have ihN := (ih s1 s2 lo hi hagree hclosed).1
    have ihE := (ih s1 s2 lo hi hagree hclosed).2
    constructor
    · intro c t hlo hhi h
      rw [extractN_succ] at h
      rw [extractN_succ]
      cases hf : s1.find c with
      | none => rw [hf] at h; simp at h
      | some nd =>
        rw [hf] at h
        have h2 : (match extractEs g s1 nd.entries with
          | none => none
          | some es => some (PTree.mk es)) = some t := h
        have hag := hagree c hlo hhi
        rw [hf] at hag
        cases hf2 : s2.find c with
        | none => rw [hf2] at hag; simp at hag
        | some nd2 =>
          rw [hf2] at hag
          have hent : nd2.entries = nd.entries := by simpa using hag
          show (match extractEs g s2 nd2.entries with
            | none => none
            | some es => some (PTree.mk es)) = some t
          rw [hent]
          cases hes : extractEs g s1 nd.entries with
          | none => rw [hes] at h2; simp at h2
          | some es =>
            rw [hes] at h2
            rw [ihE nd.entries es
              (fun k2 m hm => hclosed c nd k2 m hlo hhi hf hm) hes]
            exact h2
    · intro l es hrange h
      cases l with
      | nil => simpa [extractEs] using h
      | cons a rest =>
        obtain ⟨k, v⟩ := a
        cases v with
        | leaf n =>
          rw [extractEs_succ_leaf] at h
          rw [extractEs_succ_leaf]
          cases hes : extractEs g s1 rest with
          | none => rw [hes] at h; simp at h
          | some es2 =>
            rw [hes] at h
            rw [ihE rest es2 (fun k2 m hm => hrange k2 m (by simp [hm])) hes]
            exact h
        | node j =>
          rw [extractEs_succ_node] at h
          rw [extractEs_succ_node]
          obtain ⟨hjlo, hjhi⟩ := hrange k j (by simp)
          cases ht : extractN g s1 j with
          | none => rw [ht] at h; simp at h
          | some t2 =>
            rw [ht] at h
            rw [ihN j t2 hjlo hjhi ht]
            have h2 : (match extractEs g s1 rest with
              | none => none
              | some es2 => some ((k, t2) :: es2)) = some es := h
            show (match extractEs g s2 rest with
              | none => none
              | some es2 => some ((k, t2) :: es2)) = some es
            cases hes : extractEs g s1 rest with
            | none => rw [hes] at h2; simp at h2
            | some es2 =>
              rw [hes] at h2
              rw [ihE rest es2 (fun k2 m hm => hrange k2 m (by simp [hm])) hes]
              exact h2

theorem rebuildN_succ_mk (f : Nat) (es : List (PyKey × PTree)) (s : St) :
    rebuildN (f + 1) (PTree.mk es) s =
      (match rebuildEs f es (alloc s).1 (alloc s).2 with
       | none => none
       | some s2 => some ((alloc s).1, s2)) := rfl

theorem rebuildEs_succ_nil (f : Nat) (j : Nat) (s : St) :
    rebuildEs (f + 1) [] j s = some s := rfl

theorem rebuildEs_succ_leaf (f : Nat) (k : PyKey) (n : Int)
    (rest : List (PyKey × PTree)) (j : Nat) (s : St) :
    rebuildEs (f + 1) ((k, PTree.leaf n) :: rest) j s =
      (match setitem replayFuel j k (some (Val.leaf n)) s with
       | some (Except.ok _, s1) => rebuildEs f rest j s1
       | _ => none) := rfl

theorem rebuildEs_succ_node (f : Nat) (k : PyKey) (es : List (PyKey × PTree))
    (rest : List (PyKey × PTree)) (j : Nat) (s : St) :
    rebuildEs (f + 1) ((k, PTree.mk es) :: rest) j s =
      (match rebuildN f (PTree.mk es) s with
       | none => none
       | some (c, s1) =>
         match setitem replayFuel j k (some (Val.node c)) s1 with
         | some (Except.ok _, s2) => rebuildEs f rest j s2
         | _ => none) := rfl

theorem treeOkEsB_cons (k : PyKey) (t : PTree) (rest : List (PyKey × PTree))
    (h : treeOkEsB ((k, t) :: rest) = true) :
    issequence k = false ∧ isHashable k = true ∧ keyInB rest k = false ∧
      treeOkB t = true ∧ treeOkEsB rest = true := by
  have h2 : (!(issequence k) && isHashable k && !(keyInB rest k) && treeOkB t &&
      treeOkEsB rest) = true := h
  simp only [Bool.and_eq_true, Bool.not_eq_true'] at h2
  exact ⟨h2.1.1.1.1, h2.1.1.1.2, h2.1.1.2, h2.1.2, h2.2⟩

theorem keyInB_cons_of_rest (k k2 : PyKey) (t : PTree) (rest : List (PyKey × PTree))
    (h : keyInB rest k2 = true) : keyInB ((k, t) :: rest) k2 = true := by
  show (if k = k2 then true else keyInB rest k2) = true
  split
  · rfl
  · exact h

theorem keyInB_cons_head (k : PyKey) (t : PTree) (rest : List (PyKey × PTree)) :
    keyInB ((k, t) :: rest) k = true := by
  show (if k = k then true else keyInB rest k) = true
  rw [if_pos rfl]

theorem setitem_replay_leaf (j : Nat) (k : PyKey) (n : Int)
    (ents : List (PyKey × Val)) (s : St)
    (hsk : issequence k = false) (hh : isHashable k = true)
    (hf : s.find j = some ⟨ents, none, none, none, none⟩)
    (hlk : lookupE ents k = none) :
    setitem replayFuel j k (some (Val.leaf n)) s =
      some (Except.ok (), setEntries s j (ents ++ [(k, Val.leaf n)])) := by
  have hl : lockedE 19 s j = some false :=
    lockedE_parentless 18 s j _ hf rfl rfl
  have h := setitem_plain_leaf 18 j k n s ⟨ents, none, none, none, none⟩ hsk hh hf hl
  have h2 : setitem replayFuel j k (some (Val.leaf n)) s =
      some (Except.ok (), setEntries (occLeave s ⟨ents, none, none, none, none⟩ k) j
        (insertE ents k (Val.leaf n))) := h
  rw [insertE_append_absent ents k _ hlk] at h2
  rw [show occLeave s ⟨ents, none, none, none, none⟩ k = s from by
    unfold occLeave
    show (match lookupE ents k with
      | some (Val.node j) => leaveParent s j
      | _ => s) = s
    rw [hlk]] at h2
  exact h2

theorem setitem_replay_node (j : Nat) (k : PyKey) (m : Nat)
    (ents : List (PyKey × Val)) (s : St)
    (hsk : issequence k = false) (hh : isHashable k = true)
    (hf : s.find j = some ⟨ents, none, none, none, none⟩)
    (hlk : lookupE ents k = none) (hmj : m ≠ j) :
    setitem replayFuel j k (some (Val.node m)) s =
      some (Except.ok (), setEntries (setLink s m (some j) (some j) (some k)) j
        (ents ++ [(k, Val.node m)])) := by
  have hl : lockedE 19 s j = some false :=
    lockedE_parentless 18 s j _ hf rfl rfl
  have hoc : occLeave s ⟨ents, none, none, none, none⟩ k = s := by
    unfold occLeave
    show (match lookupE ents k with
      | some (Val.node j) => leaveParent s j
      | _ => s) = s
    rw [hlk]
  have hfsp : (setParent s m (some j)).find j = some ⟨ents, none, none, none, none⟩ := by
    rw [find_setParent, if_neg (fun he => hmj he.symm)]
    exact hf
  have hr : rootE 19 (setParent (occLeave s ⟨ents, none, none, none, none⟩ k) m
      (some j)) j = some j := by
    rw [hoc]
    exact rootE_parentless 18 _ j _ hfsp rfl
  have h := setitem_plain_node 18 j k m s ⟨ents, none, none, none, none⟩ j hsk hh hf hl hr
  have h2 : setitem replayFuel j k (some (Val.node m)) s =
      some (Except.ok (),
        setEntries (setLink (occLeave s ⟨ents, none, none, none, none⟩ k) m
          (some j) (some j) (some k)) j (insertE ents k (Val.node m))) := h
  rw [insertE_append_absent ents k _ hlk, hoc] at h2
  exact h2

theorem rebuild_spec (f : Nat) :
    (∀ (es : List (PyKey × PTree)) (s : St) (c : Nat) (s' : St),
      treeOkEsB es = true → IdsOk s →
      rebuildN f (PTree.mk es) s = some (c, s') →
      c = s.next ∧ s.next < s'.next ∧ IdsOk s' ∧
      (∀ p, p < s.next → s'.find p = s.find p) ∧
      (∀ p nd k2 m, s.next ≤ p → p < s'.next → s'.find p = some nd →
        (k2, Val.node m) ∈ nd.entries → s.next ≤ m ∧ m < s'.next) ∧
      (∀ p, s.next ≤ p → p < s'.next → ∃ nd, s'.find p = some nd) ∧
      (∃ ents2, s'.find c = some ⟨ents2, none, none, none, none⟩ ∧
        ∃ g, extractEs g s' ents2 = some es)) ∧
    (∀ (l : List (PyKey × PTree)) (j : Nat) (ents : List (PyKey × Val)) (s s' : St),
      treeOkEsB l = true → IdsOk s → j < s.next →
      s.find j = some ⟨ents, none, none, none, none⟩ →
      (∀ k2, keyInB l k2 = true → lookupE ents k2 = none) →
      rebuildEs f l j s = some s' →
      s.next ≤ s'.next ∧ IdsOk s' ∧
      (∀ p, p ≠ j → p < s.next → s'.find p = s.find p) ∧
      (∀ p nd k2 m, s.next ≤ p → p < s'.next → s'.find p = some nd →
        (k2, Val.node m) ∈ nd.entries → s.next ≤ m ∧ m < s'.next) ∧
      (∀ p, s.next ≤ p → p < s'.next → ∃ nd, s'.find p = some nd) ∧
      (∃ ents2, s'.find j = some ⟨ents ++ ents2, none, none, none, none⟩ ∧
        (∀ k2 m, (k2, Val.node m) ∈ ents2 → s.next ≤ m ∧ m < s'.next) ∧
        ∃ g, extractEs g s' ents2 = some l)) := by
  induction f with
  | zero =>
    constructor
    · intro es s c s' _ _ h
      exact absurd h (by simp [rebuildN])
    · intro l j ents s s' _ _ _ _ _ h
      exact absurd h (by simp [rebuildEs])
  | succ f ih =>
    obtain ⟨ihN, ihE⟩ := ih
    constructor
    · intro es s c s' hok hids h
      rw [rebuildN_succ_mk] at h
      cases hRe : rebuildEs f es (alloc s).1 (alloc s).2 with
      | none => rw [hRe] at h; exact absurd h (by simp)
      | some s2 =>
        rw [hRe] at h
        have h2 : some ((alloc s).1, s2) = some (c, s') := h
        have h3 := Option.some.inj h2
        have hc : c = s.next := (congrArg Prod.fst h3).symm
        have hs : s' = s2 := (congrArg Prod.snd h3).symm
        subst hc
        subst hs
        have hfc : (alloc s).2.find s.next = some ⟨[], none, none, none, none⟩ := by
          rw [find_alloc s s.next hids, if_pos rfl]
          rfl
        have hE := ihE es s.next [] (alloc s).2 s' hok (IdsOk_alloc s hids)
          (Nat.lt_succ_self s.next) hfc (fun _ _ => rfl) hRe
        obtain ⟨hle, hids2, hframe, hclosed, halloc2, ents2, hfj2, hcl2, g, hex⟩ := hE
        have hle2 : s.next + 1 ≤ s'.next := hle
        rw [List.nil_append] at hfj2
        refine ⟨rfl, by omega, hids2, ?_, ?_, ?_, ents2, hfj2, g, hex⟩
        · intro p hp
          have hne : p ≠ s.next := Nat.ne_of_lt hp
          have h1 := hframe p hne (show p < s.next + 1 by omega)
          rw [h1, find_alloc s p hids, if_neg hne]
        · intro p nd k2 m hp1 hp2 hfind hmem
          by_cases hpc : p = s.next
          · subst hpc
            rw [hfj2] at hfind
            have hnd := Option.some.inj hfind
            have hmem2 : (k2, Val.node m) ∈ ents2 := by
              rw [← hnd] at hmem
              exact hmem
            obtain ⟨hm1, hm2⟩ := hcl2 k2 m hmem2
            have hm3 : s.next + 1 ≤ m := hm1
            exact ⟨by omega, hm2⟩
          · obtain ⟨hm1, hm2⟩ := hclosed p nd k2 m
              (show s.next + 1 ≤ p by omega) hp2 hfind hmem
            have hm3 : s.next + 1 ≤ m := hm1
            exact ⟨by omega, hm2⟩
        · intro p hp1 hp2
          by_cases hpc : p = s.next
          · subst hpc
            exact ⟨_, hfj2⟩
          · exact halloc2 p (show s.next + 1 ≤ p by omega) hp2
    · intro l j ents s s' hok hids hj hfj hkeys h
      cases l with
      | nil =>
        rw [rebuildEs_succ_nil] at h
        have hs : s = s' := Option.some.inj h
        subst hs
        refine ⟨Nat.le_refl _, hids, fun p _ _ => rfl, ?_, ?_, [], ?_, ?_, 1, rfl⟩
        · intro p nd k2 m hp1 hp2 _ _
          omega
        · intro p hp1 hp2
          omega
        · rw [List.append_nil]
          exact hfj
        · intro k2 m hm
          exact absurd hm (List.not_mem_nil _)
      | cons head rest =>
        obtain ⟨k, t⟩ := head
        obtain ⟨hsk, hh, hknot, htOk, hrOk⟩ := treeOkEsB_cons k t rest hok
        cases t with
        | leaf n =>
          rw [rebuildEs_succ_leaf] at h
          have hlk : lookupE ents k = none :=
            hkeys k (keyInB_cons_head k (PTree.leaf n) rest)
          have hset := setitem_replay_leaf j k n ents s hsk hh hfj hlk
          rw [hset] at h
          have h2 : rebuildEs f rest j
              (setEntries s j (ents ++ [(k, Val.leaf n)])) = some s' := h
          have hfj2 : (setEntries s j (ents ++ [(k, Val.leaf n)])).find j =
              some ⟨ents ++ [(k, Val.leaf n)], none, none, none, none⟩ := by
            rw [find_setEntries, if_pos rfl, hfj]
            rfl
          have hkeys2 : ∀ k2, keyInB rest k2 = true →
              lookupE (ents ++ [(k, Val.leaf n)]) k2 = none := by
            intro k2 hk2
            rw [lookupE_append,
              hkeys k2 (keyInB_cons_of_rest k k2 (PTree.leaf n) rest hk2)]
            have hne : ¬ k = k2 := by
              intro he
              rw [he] at hknot
              rw [hknot] at hk2
              exact absurd hk2 (by simp)
            show (if k = k2 then some (Val.leaf n) else lookupE [] k2) = none
            rw [if_neg hne]
            rfl
          have hE := ihE rest j (ents ++ [(k, Val.leaf n)])
            (setEntries s j (ents ++ [(k, Val.leaf n)])) s' hrOk
            (IdsOk_upd s j _ hids) hj hfj2 hkeys2 h2
          obtain ⟨hle, hids2, hframe, hclosed, halloc2, ents2, hfind2, hcl2, g, hex⟩ := hE
          rw [List.append_assoc, List.singleton_append] at hfind2
          refine ⟨hle, hids2, ?_, hclosed, halloc2,
            (k, Val.leaf n) :: ents2, hfind2, ?_, g + 1, ?_⟩
          · intro p hpj hp
            rw [hframe p hpj hp, find_setEntries, if_neg hpj]
          · intro k2 m hm
            rcases List.mem_cons.mp hm with he | htl
            · have hv := congrArg Prod.snd he
              exact absurd hv (by simp)
            · exact hcl2 k2 m htl
          · rw [extractEs_succ_leaf, hex]
        | mk es0 =>
          rw [rebuildEs_succ_node] at h
          cases hN : rebuildN f (PTree.mk es0) s with
          | none => rw [hN] at h; exact absurd h (by simp)
          | some pr =>
            obtain ⟨c, s1⟩ := pr
            rw [hN] at h
            have htOk2 : treeOkEsB es0 = true := htOk
            have hNs := ihN es0 s c s1 htOk2 hids hN
            obtain ⟨hc, hlt1, hids1, hframe1, hclosed1, halloc1, entsc, hfc, gc, hexc⟩ := hNs
            subst hc
            have hfj1 : s1.find j = some ⟨ents, none, none, none, none⟩ := by
              rw [hframe1 j hj]
              exact hfj
            have hlk : lookupE ents k = none :=
              hkeys k (keyInB_cons_head k (PTree.mk es0) rest)
            have hset := setitem_replay_node j k s.next ents s1 hsk hh hfj1 hlk
              (Nat.ne_of_lt hj).symm
            have h1 : (match setitem replayFuel j k (some (Val.node s.next)) s1 with
                | some (Except.ok _, s2) => rebuildEs f rest j s2
                | _ => none) = some s' := h
            rw [hset] at h1
            have h2 : rebuildEs f rest j
                (setEntries (setLink s1 s.next (some j) (some j) (some k)) j
                  (ents ++ [(k, Val.node s.next)])) = some s' := h1
            have hjc : ¬ j = s.next := Nat.ne_of_lt hj
            have hfjS2 : (setEntries (setLink s1 s.next (some j) (some j) (some k)) j
                (ents ++ [(k, Val.node s.next)])).find j =
                some ⟨ents ++ [(k, Val.node s.next)], none, none, none, none⟩ := by
              rw [find_setEntries, if_pos rfl, find_setLink, if_neg hjc, hfj1]
              rfl
            have hfindS2 : ∀ p, p ≠ j → p ≠ s.next →
                (setEntries (setLink s1 s.next (some j) (some j) (some k)) j
                  (ents ++ [(k, Val.node s.next)])).find p = s1.find p := by
              intro p hpj hpc
              rw [find_setEntries, if_neg hpj, find_setLink, if_neg hpc]
            have hfcS2 : (setEntries (setLink s1 s.next (some j) (some j) (some k)) j
                (ents ++ [(k, Val.node s.next)])).find s.next =
                some ⟨entsc, some j, some j, none, some k⟩ := by
              rw [find_setEntries, if_neg (fun he => hjc he.symm),
                find_setLink, if_pos rfl, hfc]
              rfl
            have hkeys2 : ∀ k2, keyInB rest k2 = true →
                lookupE (ents ++ [(k, Val.node s.next)]) k2 = none := by
              intro k2 hk2
              rw [lookupE_append,
                hkeys k2 (keyInB_cons_of_rest k k2 (PTree.mk es0) rest hk2)]
              have hne : ¬ k = k2 := by
                intro he
                rw [he] at hknot
                rw [hknot] at hk2
                exact absurd hk2 (by simp)
              show (if k = k2 then some (Val.node s.next) else lookupE [] k2) = none
              rw [if_neg hne]
              rfl
            have hjS2 : j < s1.next := by omega
            have hE := ihE rest j (ents ++ [(k, Val.node s.next)])
              (setEntries (setLink s1 s.next (some j) (some j) (some k)) j
                (ents ++ [(k, Val.node s.next)])) s' hrOk
              (IdsOk_upd _ j _ (IdsOk_upd s1 s.next _ hids1))
              hjS2 hfjS2 hkeys2 h2
            obtain ⟨hle, hids2, hframe2, hclosed2, halloc2, ents2, hfind2, hcl2, g2, hex2⟩ := hE
            have hle2 : s1.next ≤ s'.next := hle
            rw [List.append_assoc, List.singleton_append] at hfind2
            refine ⟨by omega, hids2, ?_, ?_, ?_,
              (k, Val.node s.next) :: ents2, hfind2, ?_, ?_⟩
            · intro p hpj hp
              rw [hframe2 p hpj (show p < s1.next by omega),
                hfindS2 p hpj (Nat.ne_of_lt (by omega)), hframe1 p hp]
            · intro p nd k2 m hp1 hp2 hfind hmem
              by_cases hps1 : p < s1.next
              · have hpj : p ≠ j := by omega
                have h1 : s'.find p = (setEntries
                    (setLink s1 s.next (some j) (some j) (some k)) j
                    (ents ++ [(k, Val.node s.next)])).find p := hframe2 p hpj hps1
                by_cases hpc : p = s.next
                · subst hpc
                  rw [h1, hfcS2] at hfind
                  have hnd := Option.some.inj hfind
                  have hmem2 : (k2, Val.node m) ∈ entsc := by
                    rw [← hnd] at hmem
                    exact hmem
                  obtain ⟨hm1, hm2⟩ := hclosed1 s.next ⟨entsc, none, none, none, none⟩
                    k2 m (Nat.le_refl _) hps1 hfc hmem2
                  exact ⟨hm1, by omega⟩
                · rw [h1, hfindS2 p hpj hpc] at hfind
                  obtain ⟨hm1, hm2⟩ := hclosed1 p nd k2 m hp1 hps1 hfind hmem
                  exact ⟨hm1, by omega⟩
              · obtain ⟨hm1, hm2⟩ := hclosed2 p nd k2 m
                  (show s1.next ≤ p by omega) hp2 hfind hmem
                have hm3 : s1.next ≤ m := hm1
                exact ⟨by omega, hm2⟩
            · intro p hp1 hp2
              by_cases hps1 : p < s1.next
              · have hpj : p ≠ j := by omega
                by_cases hpc : p = s.next
                · subst hpc
                  exact ⟨_, by rw [hframe2 _ hpj hps1, hfcS2]⟩
                · obtain ⟨nd, hnd⟩ := halloc1 p hp1 hps1
                  exact ⟨nd, by rw [hframe2 p hpj hps1, hfindS2 p hpj hpc, hnd]⟩
              · exact halloc2 p (show s1.next ≤ p by omega) hp2
            · intro k2 m hm
              rcases List.mem_cons.mp hm with he | htl
              · have hv := congrArg Prod.snd he
                have hm2 : m = s.next := by
                  have := Val.node.inj hv
                  exact this
                rw [hm2]
                exact ⟨Nat.le_refl _, by omega⟩
              · obtain ⟨hm1, hm2⟩ := hcl2 k2 m htl
                have hm3 : s1.next ≤ m := hm1
                exact ⟨by omega, hm2⟩
            · have hagree : ∀ p, s.next ≤ p → p < s1.next →
                  (s'.find p).map Node.entries = (s1.find p).map Node.entries := by
                intro p hp1 hp2
                have hpj : p ≠ j := by omega
                rw [hframe2 p hpj hp2]
                by_cases hpc : p = s.next
                · subst hpc
                  rw [hfcS2, hfc]
                  rfl
                · rw [hfindS2 p hpj hpc]
              have hexc1 : extractN (gc + 1) s1 s.next = some (PTree.mk es0) := by
                rw [extractN_succ, hfc]
                show (match extractEs gc s1 entsc with
                  | none => none
                  | some es => some (PTree.mk es)) = some (PTree.mk es0)
                rw [hexc]
              have hexc2 : extractN (gc + 1) s' s.next = some (PTree.mk es0) :=
                (extract_stable (gc + 1) s1 s' s.next s1.next hagree hclosed1).1
                  s.next (PTree.mk es0) (Nat.le_refl _) hlt1 hexc1
              have hexc3 : extractN (max (gc + 1) g2) s' s.next = some (PTree.mk es0) :=
                extractN_le _ _ _ _ _ (Nat.le_max_left _ _) hexc2
              have hex3 : extractEs (max (gc + 1) g2) s' ents2 = some rest :=
                extractEs_le _ _ _ _ _ (Nat.le_max_right _ _) hex2
              refine ⟨max (gc + 1) g2 + 1, ?_⟩
              rw [extractEs_succ_node, hexc3]
              show (match extractEs (max (gc + 1) g2) s' ents2 with
                | none => none
                | some es2 => some ((k, PTree.mk es0) :: es2)) =
                some ((k, PTree.mk es0) :: rest)
              rw [hex3]

/-- C9: refuted as stated.  The claim quantifies over every tree, but a
tree whose root stores a leaf under the hashable tuple key ("a",) does
not round-trip: the replayed `__setitem__` classifies the tuple with
`issequence` and resolves it as a path, so the reconstructed root holds
the leaf under the plain key "a" and the reconstructed tree differs
from the serialized one. -/
theorem c9_counterexample :
    extractN 3 c9BadSt 0 = some c9BadTree ∧
    rebuildN 10 c9BadTree stEmpty = some (0, c9BadRe) ∧
    extractN 4 c9BadRe 0 = some (PTree.mk [(keyA, PTree.leaf 5)]) ∧
    PTree.mk [(keyA, PTree.leaf 5)] ≠ c9BadTree := by decide

/-- C9 (amended): for a serialized tree all of whose keys are scalar
(non-sequence) hashable keys with distinct siblings — which is every
tree the class itself builds through plain-key stores — replaying the
`__reduce__` recipe into any heap rebuilds, at the fresh identity, a
root whose parent/root-cache/lock/own-key attributes are all fresh
(`None`) rather than copied, without touching any pre-existing object,
and reading the reconstructed root back gives a tree structurally equal
to the serialized one. -/
theorem c9_amended (f : Nat) (es : List (PyKey × PTree)) (s : St) (c : Nat) (s2 : St)
    (hok : treeOkEsB es = true) (hids : IdsOk s)
    (h : rebuildN f (PTree.mk es) s = some (c, s2)) :
    c = s.next ∧
    (∀ p, p < s.next → s2.find p = s.find p) ∧
    (∃ nd, s2.find c = some nd ∧ nd.parent = none ∧ nd.root = none ∧
      nd.locked = none ∧ nd.key = none) ∧
    ∃ g, extractN g s2 c = some (PTree.mk es) := by
  obtain ⟨hc, hlt, hids2, hframe, hclosed, halloc, ents2, hfind, g, hex⟩ :=
    (rebuild_spec f).1 es s c s2 hok hids h
  refine ⟨hc, hframe, ⟨_, hfind, rfl, rfl, rfl, rfl⟩, g + 1, ?_⟩
  rw [extractN_succ, hfind]
  show (match extractEs g s2 ents2 with
    | none => none
    | some es2 => some (PTree.mk es2)) = some (PTree.mk es)
  rw [hex]

/-- Witness: the amended reconstruction contract applied to the
concrete two-level tree `c9Es` replayed into the empty heap. -/
theorem c9_amended_witness :
    treeOkEsB c9Es = true ∧ IdsOk stEmpty ∧
    rebuildN 10 (PTree.mk c9Es) stEmpty = some (0, c9WRe) ∧
    (0 = stEmpty.next ∧
      (∀ p, p < stEmpty.next → c9WRe.find p = stEmpty.find p) ∧
      (∃ nd, c9WRe.find 0 = some nd ∧ nd.parent = none ∧ nd.root = none ∧
        nd.locked = none ∧ nd.key = none) ∧
      ∃ g, extractN g c9WRe 0 = some (PTree.mk c9Es)) :=
  ⟨by decide, fun p hp => absurd hp (List.not_mem_nil p), by decide,
   c9_amended 10 c9Es stEmpty 0 c9WRe (by decide)
     (fun p hp => absurd hp (List.not_mem_nil p)) (by decide)⟩

theorem superDel_present (i : Nat) (key : PyKey) (s : St) (nd : Node) (d0 : Val)
    (hh : isHashable key = true) (hf : s.find i = some nd)
    (hocc : lookupE nd.entries key = some d0) :
    superDel i key s = some (Except.ok (), setEntries s i (eraseE nd.entries key)) := by
  unfold superDel
  rw [hf, hh]
  simp only [if_true, hocc]

theorem setitem_plain_del_present (f : Nat) (i : Nat) (key : PyKey) (s : St)
    (nd : Node) (d0 : Val) (hsk : issequence key = false) (hh : isHashable key = true)
    (hf : s.find i = some nd) (hl : lockedE (f + 1) s i = some false)
    (hocc : lookupE nd.entries key = some d0)
    (hl2 : lockedE f (occLeave s nd key) i = some false) :
    setitem (f + 2) i key none s =
      some (Except.ok (), setEntries (occLeave s nd key) i (eraseE nd.entries key)) := by
  have e1 : lockedM (f + 1) i s = some (Except.ok false, s) := lockedM_eval _ _ _ _ hl
  have e2 : contains (f + 1) i key s =
      some (Except.ok (lookupE nd.entries key).isSome, s) :=
    contains_scalar_eval f i key s nd hh hf
  have e3 : getitem (f + 1) i key s = some (Except.ok d0, s) :=
    getitem_scalar_present f i key s nd d0 hsk hh hf hocc
  obtain ⟨nd1, hf1, hent1⟩ := find_entries_occLeave s nd key i nd hf
  have hlv : leaveIfNode d0 s = some (Except.ok (), occLeave s nd key) := by
    unfold occLeave
    rw [hocc]
    cases d0 with
    | leaf w => rfl
    | node j => rfl
  have e4 : contains (f + 1) i key (occLeave s nd key) =
      some (Except.ok (lookupE nd1.entries key).isSome, occLeave s nd key) :=
    contains_scalar_eval f i key _ nd1 hh hf1
  have e5 : delitem (f + 1) i key (occLeave s nd key) =
      some (Except.ok (), setEntries (occLeave s nd key) i (eraseE nd.entries key)) := by
    rw [delitem_succ]
    rw [mbind_ok _ _ _ _ _ (lockedM_eval f i _ false hl2)]
    simp only [Bool.false_eq_true, if_false]
    rw [superDel_present i key _ nd1 d0 hh hf1 (hent1 ▸ hocc), hent1]
  have hbody : (mbind (contains (f + 1) i key) (fun c =>
      mbind (if c then mbind (getitem (f + 1) i key) leaveIfNode else mok ())
        (fun _ => mbind (contains (f + 1) i key) (fun c2 =>
          if c2 then delitem (f + 1) i key else mok ())))) s =
      some (Except.ok (),
        setEntries (occLeave s nd key) i (eraseE nd.entries key)) := by
    rw [mbind_ok _ _ _ _ _ e2]
    simp only [hocc, Option.isSome_some, if_true]
    rw [mbind_ok _ _ _ _ _ (mbind_ok _ _ _ _ _ e3 ▸ hlv :
      mbind (getitem (f + 1) i key) leaveIfNode s =
        some (Except.ok (), occLeave s nd key))]
    rw [mbind_ok _ _ _ _ _ e4]
    simp only [hent1, hocc, Option.isSome_some, if_true]
    exact e5
  show setitem (f + 1 + 1) i key none s = _
  rw [setitem_succ]
  rw [mbind_ok _ _ _ _ _ e1]
  simp only [Bool.false_eq_true, if_false, hsk]
  rw [catchKey_ok _ _ _ _ _ hbody]

theorem setitem_plain_del_absent (f : Nat) (i : Nat) (key : PyKey) (s : St)
    (nd : Node) (hsk : issequence key = false) (hh : isHashable key = true)
    (hf : s.find i = some nd) (hl : lockedE (f + 1) s i = some false)
    (hocc : lookupE nd.entries key = none) :
    setitem (f + 2) i key none s = some (Except.ok (), s) := by
  have e1 : lockedM (f + 1) i s = some (Except.ok false, s) := lockedM_eval _ _ _ _ hl
  have e2 : contains (f + 1) i key s =
      some (Except.ok (lookupE nd.entries key).isSome, s) :=
    contains_scalar_eval f i key s nd hh hf
  have hbody : (mbind (contains (f + 1) i key) (fun c =>
      mbind (if c then mbind (getitem (f + 1) i key) leaveIfNode else mok ())
        (fun _ => mbind (contains (f + 1) i key) (fun c2 =>
          if c2 then delitem (f + 1) i key else mok ())))) s =
      some (Except.ok (), s) := by
    rw [mbind_ok _ _ _ _ _ e2]
    simp only [hocc, Option.isSome_none, Bool.false_eq_true, if_false]
    rw [mbind_ok _ _ _ _ _ (show mok () s = some (Except.ok (), s) from rfl)]
    rw [mbind_ok _ _ _ _ _ e2]
    simp only [hocc, Option.isSome_none, Bool.false_eq_true, if_false]
    rfl
  show setitem (f + 1 + 1) i key none s = _
  rw [setitem_succ]
  rw [mbind_ok _ _ _ _ _ e1]
  simp only [Bool.false_eq_true, if_false, hsk]
  rw [catchKey_ok _ _ _ _ _ hbody]

theorem setitem_plain_del_lockedfalse (f : Nat) (i : Nat) (key : PyKey) (s : St)
    (nd : Node) (d0 : Val) (hsk : issequence key = false) (hh : isHashable key = true)
    (hf : s.find i = some nd) (hl : lockedE (f + 1) s i = some false)
    (hocc : lookupE nd.entries key = some d0) (b2 : Option Bool)
    (hl2 : lockedE f (occLeave s nd key) i = b2) :
    (b2 = none → setitem (f + 2) i key none s = none) ∧
    (b2 = some true → setitem (f + 2) i key none s =
      some (Except.error Err.lockedErr, occLeave s nd key)) := by
  have e1 : lockedM (f + 1) i s = some (Except.ok false, s) := lockedM_eval _ _ _ _ hl
  have e2 : contains (f + 1) i key s =
      some (Except.ok (lookupE nd.entries key).isSome, s) :=
    contains_scalar_eval f i key s nd hh hf
  have e3 : getitem (f + 1) i key s = some (Except.ok d0, s) :=
    getitem_scalar_present f i key s nd d0 hsk hh hf hocc
  obtain ⟨nd1, hf1, hent1⟩ := find_entries_occLeave s nd key i nd hf
  have hlv : leaveIfNode d0 s = some (Except.ok (), occLeave s nd key) := by
    unfold occLeave
    rw [hocc]
    cases d0 with
    | leaf w => rfl
    | node j => rfl
  have e4 : contains (f + 1) i key (occLeave s nd key) =
      some (Except.ok (lookupE nd1.entries key).isSome, occLeave s nd key) :=
    contains_scalar_eval f i key _ nd1 hh hf1
  constructor
  · intro hb2
    subst hb2
    have e5 : delitem (f + 1) i key (occLeave s nd key) = none := by
      rw [delitem_succ]
      exact mbind_none _ _ _ (lockedM_none f i _ hl2)
    have hbody : (mbind (contains (f + 1) i key) (fun c =>
        mbind (if c then mbind (getitem (f + 1) i key) leaveIfNode else mok ())
          (fun _ => mbind (contains (f + 1) i key) (fun c2 =>
            if c2 then delitem (f + 1) i key else mok ())))) s = none := by
      rw [mbind_ok _ _ _ _ _ e2]
      simp only [hocc, Option.isSome_some, if_true]
      rw [mbind_ok _ _ _ _ _ (mbind_ok _ _ _ _ _ e3 ▸ hlv :
        mbind (getitem (f + 1) i key) leaveIfNode s =
          some (Except.ok (), occLeave s nd key))]
      rw [mbind_ok _ _ _ _ _ e4]
      simp only [hent1, hocc, Option.isSome_some, if_true]
      exact e5
    show setitem (f + 1 + 1) i key none s = _
    rw [setitem_succ]
    rw [mbind_ok _ _ _ _ _ e1]
    simp only [Bool.false_eq_true, if_false, hsk]
    rw [catchKey_none _ _ _ hbody]
  · intro hb2
    subst hb2
    have e5 : delitem (f + 1) i key (occLeave s nd key) =
        some (Except.error Err.lockedErr, occLeave s nd key) := by
      rw [delitem_succ]
      rw [mbind_ok _ _ _ _ _ (lockedM_eval f i _ true hl2)]
      rfl
    have hbody : (mbind (contains (f + 1) i key) (fun c =>
        mbind (if c then mbind (getitem (f + 1) i key) leaveIfNode else mok ())
          (fun _ => mbind (contains (f + 1) i key) (fun c2 =>
            if c2 then delitem (f + 1) i key else mok ())))) s =
        some (Except.error Err.lockedErr, occLeave s nd key) := by
      rw [mbind_ok _ _ _ _ _ e2]
      simp only [hocc, Option.isSome_some, if_true]
      rw [mbind_ok _ _ _ _ _ (mbind_ok _ _ _ _ _ e3 ▸ hlv :
        mbind (getitem (f + 1) i key) leaveIfNode s =
          some (Except.ok (), occLeave s nd key))]
      rw [mbind_ok _ _ _ _ _ e4]
      simp only [hent1, hocc, Option.isSome_some, if_true]
      exact e5
    show setitem (f + 1 + 1) i key none s = _
    rw [setitem_succ]
    rw [mbind_ok _ _ _ _ _ e1]
    simp only [Bool.false_eq_true, if_false, hsk]
    rw [catchKey_err _ _ _ _ _ hbody (by simp)]

theorem setitem_plain_del_inv (f : Nat) (i : Nat) (key : PyKey) (s s2 : St)
    (hsk : issequence key = false) (hh : isHashable key = true)
    (h : setitem (f + 2) i key none s = some (Except.ok (), s2)) :
    ∃ nd, s.find i = some nd ∧ lockedE (f + 1) s i = some false ∧
      ((lookupE nd.entries key = none ∧ s2 = s) ∨
       (∃ d0, lookupE nd.entries key = some d0 ∧
         s2 = setEntries (occLeave s nd key) i (eraseE nd.entries key))) := by
  cases hf : s.find i with
  | none =>
    have hlock : lockedE (f + 1) s i = none := by rw [lockedE_succ, hf]
    rw [show (f + 2 : Nat) = f + 1 + 1 from rfl, setitem_succ,
      mbind_none _ _ _ (lockedM_none (f + 1) i s hlock)] at h
    exact absurd h (by simp)
  | some nd =>
    cases hl : lockedE (f + 1) s i with
    | none =>
      rw [show (f + 2 : Nat) = f + 1 + 1 from rfl, setitem_succ,
        mbind_none _ _ _ (lockedM_none (f + 1) i s hl)] at h
      exact absurd h (by simp)
    | some b =>
      cases b with
      | true =>
        rw [setitem_plain_locked f i key none s hl] at h
        exact absurd h (by simp)
      | false =>
        refine ⟨nd, rfl, rfl, ?_⟩
        cases hocc : lookupE nd.entries key with
        | none =>
          left
          rw [setitem_plain_del_absent f i key s nd hsk hh hf hl hocc] at h
          have h2 := (Option.some.injEq _ _ ▸ h :
            ((Except.ok () : Except Err Unit), s) = (Except.ok (), s2))
          exact ⟨rfl, ((Prod.mk.injEq _ _ _ _ ▸ h2).2).symm⟩
        | some d0 =>
          right
          cases hl2 : lockedE f (occLeave s nd key) i with
          | none =>
            rw [(setitem_plain_del_lockedfalse f i key s nd d0 hsk hh hf hl hocc
              none hl2).1 rfl] at h
            exact absurd h (by simp)
          | some b2 =>
            cases b2 with
            | true =>
              rw [(setitem_plain_del_lockedfalse f i key s nd d0 hsk hh hf hl hocc
                (some true) hl2).2 rfl] at h
              exact absurd h (by simp)
            | false =>
              rw [setitem_plain_del_present f i key s nd d0 hsk hh hf hl hocc hl2] at h
              have h2 := (Option.some.injEq _ _ ▸ h :
                ((Except.ok () : Except Err Unit),
                  setEntries (occLeave s nd key) i (eraseE nd.entries key)) =
                  (Except.ok (), s2))
              exact ⟨d0, rfl, ((Prod.mk.injEq _ _ _ _ ▸ h2).2).symm⟩

theorem mem_insertE (es : List (PyKey × Val)) (k : PyKey) (v : Val)
    (b : PyKey × Val) (h : b ∈ insertE es k v) : b ∈ es ∨ b = (k, v) := by
  induction es with
  | nil =>
    right
    simpa [insertE] using h
  | cons a rest ih =>
    obtain ⟨a1, a2⟩ := a
    by_cases h1 : a1 = k
    · rw [show insertE ((a1, a2) :: rest) k v =
        if a1 = k then (a1, v) :: rest else (a1, a2) :: insertE rest k v from rfl,
        if_pos h1] at h
      rcases List.mem_cons.mp h with he | hr
      · subst h1
        right
        rw [he]
      · left
        exact List.mem_cons_of_mem _ hr
    · rw [show insertE ((a1, a2) :: rest) k v =
        if a1 = k then (a1, v) :: rest else (a1, a2) :: insertE rest k v from rfl,
        if_neg h1] at h
      rcases List.mem_cons.mp h with he | hr
      · left
        exact he ▸ List.mem_cons_self _ _
      · rcases ih hr with hin | hnew
        · left
          exact List.mem_cons_of_mem _ hin
        · right
          exact hnew

theorem insertE_pairwise (es : List (PyKey × Val)) (k : PyKey) (v : Val)
    (h : es.Pairwise (fun a b => a.1 ≠ b.1)) :
    (insertE es k v).Pairwise (fun a b => a.1 ≠ b.1) := by
  induction es with
  | nil => simp [insertE]
  | cons a rest ih =>
    obtain ⟨a1, a2⟩ := a
    rw [List.pairwise_cons] at h
    obtain ⟨hhead, hrest⟩ := h
    by_cases h1 : a1 = k
    · rw [show insertE ((a1, a2) :: rest) k v =
        if a1 = k then (a1, v) :: rest else (a1, a2) :: insertE rest k v from rfl,
        if_pos h1]
      rw [List.pairwise_cons]
      exact ⟨fun b hb => hhead b hb, hrest⟩
    · rw [show insertE ((a1, a2) :: rest) k v =
        if a1 = k then (a1, v) :: rest else (a1, a2) :: insertE rest k v from rfl,
        if_neg h1]
      rw [List.pairwise_cons]
      refine ⟨?_, ih hrest⟩
      intro b hb
      rcases mem_insertE rest k v b hb with hin | hnew
      · exact hhead b hin
      · rw [hnew]
        exact h1

theorem eraseE_sublist (es : List (PyKey × Val)) (k : PyKey) :
    (eraseE es k).Sublist es := by
  induction es with
  | nil => simp [eraseE]
  | cons a rest ih =>
    obtain ⟨a1, a2⟩ := a
    by_cases h1 : a1 = k
    · rw [show eraseE ((a1, a2) :: rest) k =
        if a1 = k then rest else (a1, a2) :: eraseE rest k from rfl, if_pos h1]
      exact List.sublist_cons_self _ _
    · rw [show eraseE ((a1, a2) :: rest) k =
        if a1 = k then rest else (a1, a2) :: eraseE rest k from rfl, if_neg h1]
      exact List.Sublist.cons₂ _ ih

theorem eraseE_pairwise (es : List (PyKey × Val)) (k : PyKey)
    (h : es.Pairwise (fun a b => a.1 ≠ b.1)) :
    (eraseE es k).Pairwise (fun a b => a.1 ≠ b.1) :=
  h.sublist (eraseE_sublist es k)

theorem nodupFst_of_pairwise (es : List (PyKey × Val))
    (h : es.Pairwise (fun a b => a.1 ≠ b.1)) : (es.map Prod.fst).Nodup :=
  List.pairwise_map.mpr h

theorem occLeave_find_char (s : St) (nd : Node) (key : PyKey) (p : Nat) :
    (occLeave s nd key).find p = s.find p ∨
    (lookupE nd.entries key = some (Val.node p) ∧
      (occLeave s nd key).find p = (s.find p).map
        (fun nd0 => { nd0 with parent := none, root := none, key := none })) := by
  unfold occLeave
  cases hocc : lookupE nd.entries key with
  | none => exact Or.inl rfl
  | some d0 =>
    cases d0 with
    | leaf w => exact Or.inl rfl
    | node j =>
      by_cases hpj : p = j
      · subst hpj
        right
        exact ⟨rfl, by rw [find_leaveParent, if_pos rfl]⟩
      · left
        rw [find_leaveParent, if_neg hpj]

theorem occLeave_find_notocc (s : St) (nd : Node) (key : PyKey) (q : Nat)
    (hnotocc : ∀ jx, lookupE nd.entries key = some (Val.node jx) → q ≠ jx) :
    (occLeave s nd key).find q = s.find q := by
  rcases occLeave_find_char s nd key q with h | ⟨hocc, _⟩
  · exact h
  · exact absurd rfl (hnotocc q hocc)

theorem setEntries_find_char (Z s : St) (i : Nat) (E : List (PyKey × Val))
    (hZ : ∀ p, (Z.find p).map Node.entries = (s.find p).map Node.entries)
    (p : Nat) (ndp : Node) (hfp : (setEntries Z i E).find p = some ndp) :
    (p = i ∧ ndp.entries = E) ∨
    (p ≠ i ∧ ∃ nd0, s.find p = some nd0 ∧ ndp.entries = nd0.entries) := by
  by_cases hpi : p = i
  · subst hpi
    left
    refine ⟨rfl, ?_⟩
    rw [find_setEntries, if_pos rfl] at hfp
    cases hZi : Z.find p with
    | none => rw [hZi] at hfp; exact absurd hfp (by simp)
    | some ndz =>
      rw [hZi] at hfp
      have h2 := Option.some.inj hfp
      rw [← h2]
  · right
    refine ⟨hpi, ?_⟩
    rw [find_setEntries, if_neg hpi] at hfp
    have h2 := hZ p
    rw [hfp] at h2
    cases h1 : s.find p with
    | none => rw [h1] at h2; exact absurd h2 (by simp)
    | some nd0 =>
      rw [h1] at h2
      exact ⟨nd0, rfl, by simpa using h2⟩

theorem setEntries_attr (Z : St) (i : Nat) (E : List (PyKey × Val)) (q : Nat)
    (ndq : Node) (hq : Z.find q = some ndq) :
    ∃ ndq2, (setEntries Z i E).find q = some ndq2 ∧
      ndq2.parent = ndq.parent ∧ ndq2.root = ndq.root ∧
      ndq2.locked = ndq.locked ∧ ndq2.key = ndq.key := by
  by_cases hqi : q = i
  · subst hqi
    refine ⟨{ndq with entries := E}, ?_, rfl, rfl, rfl, rfl⟩
    rw [find_setEntries, if_pos rfl, hq]
    rfl
  · refine ⟨ndq, ?_, rfl, rfl, rfl, rfl⟩
    rw [find_setEntries, if_neg hqi, hq]

theorem LinkOk_set_leaf (s : St) (i : Nat) (key : PyKey) (w : Int) (nd : Node)
    (hf : s.find i = some nd) (hL : LinkOk s) :
    LinkOk (setEntries (occLeave s nd key) i (insertE nd.entries key (Val.leaf w))) := by
  obtain ⟨hBL, hUS, hND⟩ := hL
  have hYent : ∀ p, ((occLeave s nd key).find p).map Node.entries =
      (s.find p).map Node.entries := entriesOf_occLeave s nd key
  have hchar := setEntries_find_char (occLeave s nd key) s i
    (insertE nd.entries key (Val.leaf w)) hYent
  have hattr : ∀ q ndq, s.find q = some ndq →
      (∀ jx, lookupE nd.entries key = some (Val.node jx) → q ≠ jx) →
      ∃ ndq2, (setEntries (occLeave s nd key) i
          (insertE nd.entries key (Val.leaf w))).find q = some ndq2 ∧
        ndq2.parent = ndq.parent ∧ ndq2.key = ndq.key := by
    intro q ndq hq hnotocc
    obtain ⟨ndq2, hfq2, hp2, _, _, hk2⟩ := setEntries_attr (occLeave s nd key) i
      (insertE nd.entries key (Val.leaf w)) q ndq
      (by rw [occLeave_find_notocc s nd key q hnotocc]; exact hq)
    exact ⟨ndq2, hfq2, hp2, hk2⟩
  have hstore : ∀ p ndp k0 m0,
      (setEntries (occLeave s nd key) i
        (insertE nd.entries key (Val.leaf w))).find p = some ndp →
      lookupE ndp.entries k0 = some (Val.node m0) →
      ∃ ndp0, s.find p = some ndp0 ∧ lookupE ndp0.entries k0 = some (Val.node m0) ∧
        ¬(p = i ∧ k0 = key) := by
    intro p ndp k0 m0 hfp hlk
    rcases hchar p ndp hfp with ⟨hpi, hent⟩ | ⟨hpi, nd0, hf0, hent⟩
    · subst hpi
      rw [hent, lookupE_insertE] at hlk
      by_cases hk0 : k0 = key
      · rw [if_pos hk0] at hlk
        exact absurd hlk (by simp)
      · rw [if_neg hk0] at hlk
        exact ⟨nd, hf, hlk, fun hpair => hk0 hpair.2⟩
    · rw [hent] at hlk
      exact ⟨nd0, hf0, hlk, fun hpair => hpi hpair.1⟩
  refine ⟨?_, ?_, ?_⟩
  · intro p ndp k2 m2 hfp hlk
    obtain ⟨ndp0, hf0, hlk0, hne⟩ := hstore p ndp k2 m2 hfp hlk
    obtain ⟨ndm2, hfm2, hpar, hkey⟩ := hBL p ndp0 k2 m2 hf0 hlk0
    have hnotocc : ∀ jx, lookupE nd.entries key = some (Val.node jx) → m2 ≠ jx := by
      intro jx hjx heq
      subst heq
      obtain ⟨hii, hkk⟩ := hUS p ndp0 k2 i nd key m2 hf0 hf hlk0 hjx
      exact hne ⟨hii, hkk⟩
    obtain ⟨ndq2, hfq2, hp2, hk2e⟩ := hattr m2 ndm2 hfm2 hnotocc
    exact ⟨ndq2, hfq2, by rw [hp2, hpar], by rw [hk2e, hkey]⟩
  · intro i1 nd1 k1 i2 nd2 k2 m2 hf1 hf2 hl1 hl2
    obtain ⟨nd10, hf10, hl10, _⟩ := hstore i1 nd1 k1 m2 hf1 hl1
    obtain ⟨nd20, hf20, hl20, _⟩ := hstore i2 nd2 k2 m2 hf2 hl2
    exact hUS i1 nd10 k1 i2 nd20 k2 m2 hf10 hf20 hl10 hl20
  · intro p ndp hfp
    rcases hchar p ndp hfp with ⟨hpi, hent⟩ | ⟨hpi, nd0, hf0, hent⟩
    · subst hpi
      rw [hent]
      exact insertE_pairwise nd.entries key (Val.leaf w) (hND p nd hf)
    · rw [hent]
      exact hND p nd0 hf0

theorem LinkOk_del (s : St) (i : Nat) (key : PyKey) (nd : Node)
    (hf : s.find i = some nd) (hL : LinkOk s) :
    LinkOk (setEntries (occLeave s nd key) i (eraseE nd.entries key)) := by
  obtain ⟨hBL, hUS, hND⟩ := hL
  have hYent : ∀ p, ((occLeave s nd key).find p).map Node.entries =
      (s.find p).map Node.entries := entriesOf_occLeave s nd key
  have hchar := setEntries_find_char (occLeave s nd key) s i
    (eraseE nd.entries key) hYent
  have hattr : ∀ q ndq, s.find q = some ndq →
      (∀ jx, lookupE nd.entries key = some (Val.node jx) → q ≠ jx) →
      ∃ ndq2, (setEntries (occLeave s nd key) i
          (eraseE nd.entries key)).find q = some ndq2 ∧
        ndq2.parent = ndq.parent ∧ ndq2.key = ndq.key := by
    intro q ndq hq hnotocc
    obtain ⟨ndq2, hfq2, hp2, _, _, hk2⟩ := setEntries_attr (occLeave s nd key) i
      (eraseE nd.entries key) q ndq
      (by rw [occLeave_find_notocc s nd key q hnotocc]; exact hq)
    exact ⟨ndq2, hfq2, hp2, hk2⟩
  have hstore : ∀ p ndp k0 m0,
      (setEntries (occLeave s nd key) i (eraseE nd.entries key)).find p = some ndp →
      lookupE ndp.entries k0 = some (Val.node m0) →
      ∃ ndp0, s.find p = some ndp0 ∧ lookupE ndp0.entries k0 = some (Val.node m0) ∧
        ¬(p = i ∧ k0 = key) := by
    intro p ndp k0 m0 hfp hlk
    rcases hchar p ndp hfp with ⟨hpi, hent⟩ | ⟨hpi, nd0, hf0, hent⟩
    · subst hpi
      rw [hent] at hlk
      by_cases hk0 : k0 = key
      · subst hk0
        rw [lookupE_eraseE_self nd.entries k0
          (nodupFst_of_pairwise nd.entries (hND p nd hf))] at hlk
        exact absurd hlk (by simp)
      · rw [lookupE_eraseE_ne nd.entries key k0 hk0] at hlk
        exact ⟨nd, hf, hlk, fun hpair => hk0 hpair.2⟩
    · rw [hent] at hlk
      exact ⟨nd0, hf0, hlk, fun hpair => hpi hpair.1⟩
  refine ⟨?_, ?_, ?_⟩
  · intro p ndp k2 m2 hfp hlk
    obtain ⟨ndp0, hf0, hlk0, hne⟩ := hstore p ndp k2 m2 hfp hlk
    obtain ⟨ndm2, hfm2, hpar, hkey⟩ := hBL p ndp0 k2 m2 hf0 hlk0
    have hnotocc : ∀ jx, lookupE nd.entries key = some (Val.node jx) → m2 ≠ jx := by
      intro jx hjx heq
      subst heq
      obtain ⟨hii, hkk⟩ := hUS p ndp0 k2 i nd key m2 hf0 hf hlk0 hjx
      exact hne ⟨hii, hkk⟩
    obtain ⟨ndq2, hfq2, hp2, hk2e⟩ := hattr m2 ndm2 hfm2 hnotocc
    exact ⟨ndq2, hfq2, by rw [hp2, hpar], by rw [hk2e, hkey]⟩
  · intro i1 nd1 k1 i2 nd2 k2 m2 hf1 hf2 hl1 hl2
    obtain ⟨nd10, hf10, hl10, _⟩ := hstore i1 nd1 k1 m2 hf1 hl1
    obtain ⟨nd20, hf20, hl20, _⟩ := hstore i2 nd2 k2 m2 hf2 hl2
    exact hUS i1 nd10 k1 i2 nd20 k2 m2 hf10 hf20 hl10 hl20
  · intro p ndp hfp
    rcases hchar p ndp hfp with ⟨hpi, hent⟩ | ⟨hpi, nd0, hf0, hent⟩
    · subst hpi
      rw [hent]
      exact eraseE_pairwise nd.entries key (hND p nd hf)
    · rw [hent]
      exact hND p nd0 hf0

theorem LinkOk_set_node (s : St) (i : Nat) (key : PyKey) (m : Nat) (r : Nat)
    (nd ndm : Node) (hf : s.find i = some nd) (hfm : s.find m = some ndm)
    (hnost : ∀ i2 nd2 k2, s.find i2 = some nd2 →
      lookupE nd2.entries k2 ≠ some (Val.node m))
    (hL : LinkOk s) :
    LinkOk (setEntries (setLink (occLeave s nd key) m (some i) (some r) (some key)) i
      (insertE nd.entries key (Val.node m))) := by
  obtain ⟨hBL, hUS, hND⟩ := hL
  have hXent : ∀ p,
      ((setLink (occLeave s nd key) m (some i) (some r) (some key)).find p).map
        Node.entries = (s.find p).map Node.entries := fun p =>
    (entriesOf_setLink (occLeave s nd key) m (some i) (some r) (some key) p).trans
      (entriesOf_occLeave s nd key p)
  have hchar := setEntries_find_char
    (setLink (occLeave s nd key) m (some i) (some r) (some key)) s i
    (insertE nd.entries key (Val.node m)) hXent
  have hattr : ∀ q ndq, s.find q = some ndq → q ≠ m →
      (∀ jx, lookupE nd.entries key = some (Val.node jx) → q ≠ jx) →
      ∃ ndq2, (setEntries (setLink (occLeave s nd key) m (some i) (some r) (some key))
          i (insertE nd.entries key (Val.node m))).find q = some ndq2 ∧
        ndq2.parent = ndq.parent ∧ ndq2.key = ndq.key := by
    intro q ndq hq hqm hnotocc
    have hXq : (setLink (occLeave s nd key) m (some i) (some r) (some key)).find q =
        some ndq := by
      rw [find_setLink, if_neg hqm, occLeave_find_notocc s nd key q hnotocc]
      exact hq
    obtain ⟨ndq2, hfq2, hp2, _, _, hk2⟩ := setEntries_attr
      (setLink (occLeave s nd key) m (some i) (some r) (some key)) i
      (insertE nd.entries key (Val.node m)) q ndq hXq
    exact ⟨ndq2, hfq2, hp2, hk2⟩
  have hAm : ∃ ndm2, (setEntries
      (setLink (occLeave s nd key) m (some i) (some r) (some key)) i
      (insertE nd.entries key (Val.node m))).find m = some ndm2 ∧
      ndm2.parent = some i ∧ ndm2.key = some key := by
    have hYm : ∃ ndy, (occLeave s nd key).find m = some ndy := by
      rcases occLeave_find_char s nd key m with h | ⟨_, h⟩
      · exact ⟨ndm, by rw [h, hfm]⟩
      · exact ⟨_, by rw [h, hfm]; rfl⟩
    obtain ⟨ndy, hYm⟩ := hYm
    have hXm : (setLink (occLeave s nd key) m (some i) (some r) (some key)).find m =
        some { ndy with parent := some i, root := some r, key := some key } := by
      rw [find_setLink, if_pos rfl, hYm]
      rfl
    obtain ⟨ndm2, hfm2, hp2, _, _, hk2⟩ := setEntries_attr
      (setLink (occLeave s nd key) m (some i) (some r) (some key)) i
      (insertE nd.entries key (Val.node m)) m _ hXm
    exact ⟨ndm2, hfm2, by rw [hp2], by rw [hk2]⟩
  have hstore : ∀ p ndp k0 m0,
      (setEntries (setLink (occLeave s nd key) m (some i) (some r) (some key)) i
        (insertE nd.entries key (Val.node m))).find p = some ndp →
      lookupE ndp.entries k0 = some (Val.node m0) →
      (p = i ∧ k0 = key ∧ m0 = m) ∨
      (∃ ndp0, s.find p = some ndp0 ∧ lookupE ndp0.entries k0 = some (Val.node m0) ∧
        ¬(p = i ∧ k0 = key)) := by
    intro p ndp k0 m0 hfp hlk
    rcases hchar p ndp hfp with ⟨hpi, hent⟩ | ⟨hpi, nd0, hf0, hent⟩
    · subst hpi
      rw [hent, lookupE_insertE] at hlk
      by_cases hk0 : k0 = key
      · rw [if_pos hk0] at hlk
        have hm0 : m0 = m := by
          have := Option.some.inj hlk
          exact (Val.node.inj this).symm
        exact Or.inl ⟨rfl, hk0, hm0⟩
      · rw [if_neg hk0] at hlk
        exact Or.inr ⟨nd, hf, hlk, fun hpair => hk0 hpair.2⟩
    · rw [hent] at hlk
      exact Or.inr ⟨nd0, hf0, hlk, fun hpair => hpi hpair.1⟩
  refine ⟨?_, ?_, ?_⟩
  · intro p ndp k2 m2 hfp hlk
    rcases hstore p ndp k2 m2 hfp hlk with ⟨hpi, hk2, hm2⟩ | ⟨ndp0, hf0, hlk0, hne⟩
    · subst hpi
      subst hm2
      obtain ⟨ndm2, hfm2, hp2, hk2e⟩ := hAm
      exact ⟨ndm2, hfm2, hp2, by rw [hk2e, hk2]⟩
    · obtain ⟨ndm2, hfm2, hpar, hkey⟩ := hBL p ndp0 k2 m2 hf0 hlk0
      have hm2m : m2 ≠ m := by
        intro heq
        exact hnost p ndp0 k2 hf0 (heq ▸ hlk0)
      have hnotocc : ∀ jx, lookupE nd.entries key = some (Val.node jx) → m2 ≠ jx := by
        intro jx hjx heq
        subst heq
        obtain ⟨hii, hkk⟩ := hUS p ndp0 k2 i nd key m2 hf0 hf hlk0 hjx
        exact hne ⟨hii, hkk⟩
      obtain ⟨ndq2, hfq2, hp2, hk2e⟩ := hattr m2 ndm2 hfm2 hm2m hnotocc
      exact ⟨ndq2, hfq2, by rw [hp2, hpar], by rw [hk2e, hkey]⟩
  · intro i1 nd1 k1 i2 nd2 k2 m2 hf1 hf2 hl1 hl2
    rcases hstore i1 nd1 k1 m2 hf1 hl1 with ⟨hi1, hk1, hm1⟩ | ⟨nd10, hf10, hl10, _⟩
    · rcases hstore i2 nd2 k2 m2 hf2 hl2 with ⟨hi2, hk2e, hm2e⟩ | ⟨nd20, hf20, hl20, _⟩
      · exact ⟨hi1.trans hi2.symm, hk1.trans hk2e.symm⟩
      · exact absurd (hm1 ▸ hl20) (hnost i2 nd20 k2 hf20)
    · rcases hstore i2 nd2 k2 m2 hf2 hl2 with ⟨hi2, hk2e, hm2e⟩ | ⟨nd20, hf20, hl20, _⟩
      · exact absurd (hm2e ▸ hl10) (hnost i1 nd10 k1 hf10)
      · exact hUS i1 nd10 k1 i2 nd20 k2 m2 hf10 hf20 hl10 hl20
  · intro p ndp hfp
    rcases hchar p ndp hfp with ⟨hpi, hent⟩ | ⟨hpi, nd0, hf0, hent⟩
    · subst hpi
      rw [hent]
      exact insertE_pairwise nd.entries key (Val.node m) (hND p nd hf)
    · rw [hent]
      exact hND p nd0 hf0

theorem lookupN_all (l : List (Nat × Node)) (P : Node → Prop)
    (hall : ∀ p, p ∈ l → P p.2) (i : Nat) (nd : Node)
    (h : lookupN l i = some nd) : P nd := by
  induction l with
  | nil => exact absurd h (by simp [lookupN])
  | cons a rest ih =>
    have h2 : (if a.1 = i then some a.2 else lookupN rest i) = some nd := h
    by_cases ha : a.1 = i
    · rw [if_pos ha] at h2
      rw [← Option.some.inj h2]
      exact hall a (List.mem_cons_self _ _)
    · rw [if_neg ha] at h2
      exact ih (fun p hp => hall p (List.mem_cons_of_mem _ hp)) h2

theorem LinkOk_of_all_empty (s : St) (hall : ∀ p, p ∈ s.nodes → p.2 = Node.empty) :
    LinkOk s := by
  have hfind : ∀ i nd, s.find i = some nd → nd = Node.empty :=
    fun i nd h => lookupN_all s.nodes (fun x => x = Node.empty) hall i nd h
  refine ⟨?_, ?_, ?_⟩
  · intro a nd k j hf hlk
    rw [hfind a nd hf] at hlk
    exact absurd hlk (by simp [Node.empty, lookupE])
  · intro i1 nd1 k1 i2 nd2 k2 m hf1 hf2 hl1 hl2
    rw [hfind i1 nd1 hf1] at hl1
    exact absurd hl1 (by simp [Node.empty, lookupE])
  · intro a nd hf
    rw [hfind a nd hf]
    simp [Node.empty]

/-- C5: refuted as stated.  Starting from a heap satisfying the full
linkage invariant (a fresh root and a detached map X), the two
completed stores `d["a"] = X; d["b"] = X` — both plain public
operations — leave the stale entry at "a" pointing at X while X's own
key is "b", so the back-linkage invariant fails in the final observable
state. -/
theorem c5_counterexample :
    LinkOk c4St ∧
    setitem 12 0 keyA (some (Val.node 1)) c4St = some (Except.ok (), c4Mid) ∧
    setitem 12 0 keyB (some (Val.node 1)) c4Mid = some (Except.ok (), c5Fin) ∧
    ¬ BackLink c5Fin := by
  refine ⟨LinkOk_of_all_empty c4St (by decide), by decide, by decide, ?_⟩
  intro hBL
  obtain ⟨ndj, hfind, hpar, hkey⟩ := hBL 0
    ⟨[(keyA, Val.node 1), (keyB, Val.node 1)], none, none, none, none⟩ keyA 1
    (by decide) (by decide)
  have hj : ndj = ⟨[], some 0, some 0, none, some keyB⟩ :=
    Option.some.inj (hfind.symm.trans (by decide))
  rw [hj] at hkey
  exact absurd hkey (by decide)

/-- C5 (amended): the back-linkage invariant — bundled with no-aliasing
and per-mapping key distinctness, which reachable heaps satisfy — is
preserved by every completed plain-key `__setitem__`, store or delete,
provided a stored child map is an allocated object not currently stored
under any slot of the heap.  The aliasing hypothesis is exactly what
the counterexample violates. -/
theorem c5_amended (f : Nat) (i : Nat) (key : PyKey) (v? : Option Val) (s s2 : St)
    (hsk : issequence key = false) (hh : isHashable key = true)
    (hL : LinkOk s)
    (hnew : ∀ m, v? = some (Val.node m) →
      (∃ ndm, s.find m = some ndm) ∧
      ∀ i2 nd2 k2, s.find i2 = some nd2 → lookupE nd2.entries k2 ≠ some (Val.node m))
    (h : setitem (f + 2) i key v? s = some (Except.ok (), s2)) :
    LinkOk s2 := by
  cases v? with
  | none =>
    obtain ⟨nd, hf, hl, hcase⟩ := setitem_plain_del_inv f i key s s2 hsk hh h
    rcases hcase with ⟨_, hs2⟩ | ⟨d0, hocc, hs2⟩
    · rw [hs2]
      exact hL
    · rw [hs2]
      exact LinkOk_del s i key nd hf hL
  | some v =>
    obtain ⟨nd, hf, hl, hcase⟩ := setitem_plain_inv f i key v s s2 hsk hh h
    rcases hcase with ⟨n, hv, hs2⟩ | ⟨m, r, hv, hr, hs2⟩
    · subst hv
      rw [hs2]
      exact LinkOk_set_leaf s i key n nd hf hL
    · subst hv
      obtain ⟨⟨ndm, hfm⟩, hnost⟩ := hnew m rfl
      rw [hs2]
      exact LinkOk_set_node s i key m r nd ndm hf hfm hnost hL

/-- Witness: the amended invariant preservation applied to the concrete
store `d["a"] = 5` on a fresh root. -/
theorem c5_amended_witness :
    issequence keyA = false ∧ isHashable keyA = true ∧ LinkOk rootSt ∧
    setitem 12 0 keyA (some (Val.leaf 5)) rootSt = some (Except.ok (), c5WFin) ∧
    LinkOk c5WFin :=
  ⟨by decide, by decide, LinkOk_of_all_empty rootSt (by decide), by decide,
   c5_amended 10 0 keyA (some (Val.leaf 5)) rootSt c5WFin (by decide) (by decide)
     (LinkOk_of_all_empty rootSt (by decide))
     (fun m hm => absurd (Option.some.inj hm) (by simp)) (by decide)⟩
